import Mathlib

/-!
# Verification of the orrinai/client conversation engine

Shallow embedding of the core components of the repository:

* `MCPRouter` (packages/mcp-agent/src/agent/mcp-router.ts): multi-provider
  tool catalog aggregation and dispatch.
* `MessageAccumulator` (utils/message-accumulator.ts): folding the stream
  of `LLMCompletionChunk`s into finalized `Message` values.
* `Agent.run` (src/agent/index.ts): the per-turn orchestration loop.
* The `<thinking>`-tag segmenter in `ClaudeAdapter.createCompletion`
  (`parseNextInBuffer` and its driving loops).

External collaborators (the MCP SDK client, `JSON.parse`, the tool
providers, the LLM stream) are modelled as explicit function parameters,
so every theorem quantifies over their behaviour.

Strings are modelled as `List Char` where character-level reasoning is
required (buffers, deltas); opaque identifiers stay `String`.
-/

namespace OrrinClient

/-- JSON values, the model of the `Record<string, any>` payloads that cross
the tool boundary (`input`, `arguments`, structured content). -/
inductive JsonV where
  | null
  | bool (b : Bool)
  | num (n : Int)
  | str (s : String)
  | arr (xs : List JsonV)
  | obj (fields : List (String × JsonV))
deriving Repr

/-- Association-list lookup, the model of JS `Map.get` (first binding wins;
bindings are kept key-unique by `setA`). -/
def lookupA {α : Type} (m : List (String × α)) (k : String) : Option α :=
  match m with
  | [] => none
  | (k', v) :: rest => if k' = k then some v else lookupA rest k

/-- JS `Map.set`: replace the binding in place if the key is present,
otherwise append a new binding. -/
def setA {α : Type} (m : List (String × α)) (k : String) (v : α) :
    List (String × α) :=
  match m with
  | [] => [(k, v)]
  | (k', v') :: rest =>
    if k' = k then (k', v) :: rest else (k', v') :: setA rest k v

/-- JS `Map.delete`: remove the binding for the key (first occurrence). -/
def eraseA {α : Type} (m : List (String × α)) (k : String) :
    List (String × α) :=
  match m with
  | [] => []
  | (k', v') :: rest =>
    if k' = k then rest else (k', v') :: eraseA rest k

/-- JS `Map.has`. -/
def hasA {α : Type} (m : List (String × α)) (k : String) : Bool :=
  (lookupA m k).isSome

/-! ## Tool router (packages/mcp-agent/src/agent/mcp-router.ts) -/

/-- `LLMTool` from types.ts: a catalog entry. -/
structure LLMTool where
  name : String
  description : String
  input_schema : JsonV
deriving Repr

/-- A tool as returned by a provider's `listTools()` (MCP SDK shape):
`description` is optional. -/
structure RawTool where
  name : String
  description : Option String
  inputSchema : JsonV
deriving Repr

/-- The mapping applied in `MCPRouter.connect` to each tool obtained from
`listTools`: `description: tool.description || 'No description provided.'`. -/
def toLLMTool (t : RawTool) : LLMTool :=
  { name := t.name
  , description := t.description.getD "No description provided."
  , input_schema := t.inputSchema }

/-- Router state after `connect`: the fields of class `MCPRouter`.
Clients are identified by their transport index. -/
structure RouterSt where
  activeClients : List Nat
  aggregatedTools : List LLMTool
  toolClientMap : List (String × Nat)
  isConnected : Bool
deriving Repr

/-- Outcome of one transport's connection attempt: `none` when
`mcpClient.connect` or `listTools` threw (the catch block removes the
client and contributes an empty tool list), `some tools` on success. -/
def ConnOutcome : Type := Option (List RawTool)

/-- The per-transport body of `MCPRouter.connect`: a successful transport
maps its tools and writes each named tool into `toolClientMap`
(overwriting an existing binding, i.e. last writer wins); unnamed tools
are skipped for the map. Returns the mapped tools it contributed. -/
def connectOne (idx : Nat) (outcome : Option (List RawTool))
    (map : List (String × Nat)) :
    List LLMTool × List (String × Nat) × Bool :=
  match outcome with
  | none => ([], map, false)
  | some raws =>
    let serverTools := raws.map toLLMTool
    let map' := serverTools.foldl
      (fun acc t => if t.name ≠ "" then setA acc t.name idx else acc) map
    (serverTools, map', true)

/-- Fold of `connectOne` over all transports in index order (the
deterministic model of the `Promise.allSettled` over the index-ordered
`connectionPromises` array; `results` preserves array order). Returns the
concatenated tool contributions, the tool→client map, and the indices of
the transports that ended up in `activeClientsInfo`. -/
def connectAll (outcomes : List (Option (List RawTool))) :
    List LLMTool × List (String × Nat) × List Nat :=
  go 0 outcomes [] [] []
where
  go (idx : Nat) (rest : List (Option (List RawTool)))
      (tools : List LLMTool) (map : List (String × Nat))
      (active : List Nat) :
      List LLMTool × List (String × Nat) × List Nat :=
    match rest with
    | [] => (tools, map, active)
    | o :: os =>
      let (ts, map', ok) := connectOne idx o map
      go (idx + 1) os (tools ++ ts) map'
        (if ok then active ++ [idx] else active)

/-- The dedup filter building `aggregatedTools`: keep a tool iff its name
has not been seen yet (first occurrence wins). -/
def dedupFirst (ts : List LLMTool) : List LLMTool :=
  go ts []
where
  go : List LLMTool → List String → List LLMTool
    | [], _ => []
    | t :: rest, seen =>
      if t.name ∈ seen then go rest seen
      else t :: go rest (t.name :: seen)

/-- `MCPRouter.connect`, given the per-transport outcomes. Mirrors the
source: with no transports it marks the router connected and returns;
otherwise it aggregates, and throws exactly when no transport survived. -/
def connect (outcomes : List (Option (List RawTool))) :
    Except String RouterSt :=
  if outcomes.isEmpty then
    .ok { activeClients := [], aggregatedTools := []
        , toolClientMap := [], isConnected := true }
  else
    let (allTools, map, active) := connectAll outcomes
    if active.isEmpty then
      .error "MCPRouter: Failed to connect via ALL configured transports."
    else
      .ok { activeClients := active
          , aggregatedTools := dedupFirst allTools
          , toolClientMap := map
          , isConnected := true }

/-- `MCPRouter.getIsConnected`. -/
def getIsConnected (st : RouterSt) : Bool :=
  st.isConnected && !st.activeClients.isEmpty

/-- `MCPRouter.listTools`. -/
def listTools (st : RouterSt) : List LLMTool :=
  if getIsConnected st then st.aggregatedTools else []

/-- One content part of an MCP `CallToolResult`: either a text part or
some other structured part (kept as its JSON stringification, which is
what `_executeToolCall` falls back to). -/
inductive ContentPart where
  | text (s : String)
  | other (stringified : String)
deriving Repr

/-- MCP `CallToolResult` as consumed by the agent. -/
structure CallToolResult where
  content : List ContentPart
  isError : Option Bool
deriving Repr

/-- `MCPRouter.callTool`: not-connected and unknown-name failures throw;
a provider-level failure (`providerCall` returning `.error`) is re-thrown
wrapped in a `Failed to execute tool` error. `providerCall` models the
MCP client owned by the looked-up transport index. -/
def callTool (st : RouterSt)
    (providerCall : Nat → String → JsonV → Except String CallToolResult)
    (name : String) (args : JsonV) : Except String CallToolResult :=
  if !getIsConnected st then
    .error "MCPRouter is not connected. Cannot call tool."
  else
    match lookupA st.toolClientMap name with
    | none => .error ("Tool '" ++ name ++ "' not found or unavailable.")
    | some idx =>
      match providerCall idx name args with
      | .ok r => .ok r
      | .error e => .error ("Failed to execute tool '" ++ name ++ "': " ++ e)

/-! ## Agent-side tool execution (src/agent/index.ts `_executeToolCall`) -/

/-- `LLMToolCallRequest`. -/
structure ToolCallReq where
  id : String
  name : String
  input : JsonV
deriving Repr

/-- Result content payload: `string | Record<string, any>`. -/
inductive ResContent where
  | text (s : String)
  | structured (v : JsonV)
deriving Repr

/-- `LLMToolResult`. -/
structure LLMToolResult where
  tool_call_id : String
  content : ResContent
  is_error : Bool
deriving Repr

/-- `Agent._executeToolCall`: forwards to the router, extracts the first
content part (or a placeholder when empty), and converts every thrown
error — including the router's not-found and wrapped provider errors —
into an `is_error := true` result instead of propagating it. -/
def executeToolCall (st : RouterSt)
    (providerCall : Nat → String → JsonV → Except String CallToolResult)
    (call : ToolCallReq) : LLMToolResult :=
  match callTool st providerCall call.name call.input with
  | .ok result =>
    let data : ResContent :=
      match result.content with
      | [] => .text "[No content returned by tool]"
      | p :: _ =>
        match p with
        | .text s => .text s
        | .other s => .text s
    { tool_call_id := call.id, content := data
    , is_error := result.isError.getD false }
  | .error e =>
    { tool_call_id := call.id
    , content := .text ("Error executing tool: " ++ e)
    , is_error := true }

/-! ## Stream chunks and messages (types.ts) -/

/-- `LLMCompletionChunk`. Delta payloads are modelled as `List Char`
(the `string` contents); tool identifiers stay `String`. The `reason` /
`usage` payload of `stream_end` and the error object are irrelevant to
every claim and are dropped / kept as a message string. -/
inductive Chunk where
  | stream_start
  | stream_end
  | text_start
  | text_delta (delta : List Char)
  | text_end
  | thinking_start
  | thinking_delta (delta : List Char)
  | thinking_end
  | tool_use_start (id : String) (name : String)
  | tool_use_delta (id : String) (delta : List Char)
  | tool_use_end (id : String)
  | error (msg : String)
deriving Repr, DecidableEq

/-- `Message` (tagged by `role`). `createdAt` timestamps are dropped:
no claim concerns them. -/
inductive Msg where
  | user (content : List Char)
  | assistant (content : List Char)
  | assistantThinking (content : List Char)
  | toolUse (content : Option (List Char)) (tool_calls : List ToolCallReq)
  | toolResult (tool_results : List LLMToolResult)
deriving Repr

/-! ## Message accumulator (utils/message-accumulator.ts) -/

/-- `AccumulatingToolCallData`: one entry of `currentToolCalls`. -/
structure AccToolData where
  id : String
  name : String
  argsJson : List Char
deriving Repr

/-- The private fields of class `MessageAccumulator`. -/
structure AccSt where
  currentRole : Option Bool   -- `some true` = assistant, `some false` = assistant_thinking
  currentContent : List Char
  currentToolCalls : List (String × AccToolData)
  completedToolCalls : List ToolCallReq
  allCompletedMessages : List Msg
deriving Repr

/-- The empty accumulator (field initializers of the class). -/
def AccSt.init : AccSt :=
  { currentRole := none, currentContent := []
  , currentToolCalls := [], completedToolCalls := []
  , allCompletedMessages := [] }

/-- `MessageAccumulator.resetState(nextRole)`: clears role/content, and
clears both tool-call collections only on a full reset (`nextRole = null`).
`allCompletedMessages` is never cleared by it. -/
def resetState (s : AccSt) (nextRole : Option Bool) : AccSt :=
  if nextRole.isNone then
    { s with currentRole := none, currentContent := [],
             currentToolCalls := [], completedToolCalls := [] }
  else
    { s with currentRole := nextRole, currentContent := [] }

/-- The text `JSON.parse` receives at `tool_use_end`:
`finishedCallData.argsJson || "{}"` (an empty buffer falls back to the
two-character object literal). -/
def argsOrDefault (args : List Char) : List Char :=
  if args.isEmpty then ['\x7b', '\x7d'] else args

/-- The body of `MessageAccumulator.addChunk` before the final push:
returns the completed message (if any) and the updated state.
`parseJson` models the external `JSON.parse` builtin (`some` = parsed
value, `none` = thrown `SyntaxError`, which the source catches). -/
def addChunkCore (parseJson : List Char → Option JsonV) (s : AccSt)
    (c : Chunk) : Option Msg × AccSt :=
  match c with
  | .text_start =>
    -- both the warn-reset branch and the plain branch end with
    -- role := assistant, content := "" and untouched tool collections
    (none, { s with currentRole := some true, currentContent := [] })
  | .text_delta d =>
    if s.currentRole = some true then
      (none, { s with currentContent := s.currentContent ++ d })
    else
      let s' := resetState s (some true)
      (none, { s' with currentContent := s'.currentContent ++ d })
  | .text_end => (none, s)
  | .thinking_start =>
    (none, { s with currentRole := some false, currentContent := [] })
  | .thinking_delta d =>
    if s.currentRole = some false then
      (none, { s with currentContent := s.currentContent ++ d })
    else
      let s' := resetState s (some false)
      (none, { s' with currentContent := s'.currentContent ++ d })
  | .thinking_end =>
    if s.currentRole = some false then
      (some (.assistantThinking s.currentContent), resetState s none)
    else (none, s)
  | .tool_use_start id name =>
    let (msg, s') :=
      if s.currentRole = some true ∧ s.currentContent ≠ [] then
        (some (Msg.assistant s.currentContent), resetState s none)
      else if s.currentRole = some false ∧ s.currentContent ≠ [] then
        (some (Msg.assistantThinking s.currentContent), resetState s none)
      else (none, s)
    let s2 := { s' with currentToolCalls := setA s'.currentToolCalls id ⟨id, name, []⟩ }
    (msg, s2)
  | .tool_use_delta id d =>
    match lookupA s.currentToolCalls id with
    | some entry =>
      let entry' := { entry with argsJson := entry.argsJson ++ d }
      (none, { s with currentToolCalls := setA s.currentToolCalls id entry' })
    | none => (none, s)
  | .tool_use_end id =>
    match lookupA s.currentToolCalls id with
    | some entry =>
      let s' :=
        match parseJson (argsOrDefault entry.argsJson) with
        | some v =>
          { s with completedToolCalls :=
              s.completedToolCalls ++ [(⟨entry.id, entry.name, v⟩ : ToolCallReq)] }
        | none => s   -- parse error: skip adding this tool call
      (none, { s' with currentToolCalls := eraseA s'.currentToolCalls id })
    | none => (none, s)
  | .stream_start => (none, resetState s none)
  | .stream_end =>
    let msg : Option Msg :=
      match s.completedToolCalls with
      | _ :: _ =>
        some (.toolUse
          (if s.currentContent = [] then none else some s.currentContent)
          s.completedToolCalls)
      | [] =>
        if s.currentRole = some true ∧ s.currentContent ≠ [] then
          some (.assistant s.currentContent)
        else if s.currentRole = some false ∧ s.currentContent ≠ [] then
          some (.assistantThinking s.currentContent)
        else none
    (msg, resetState s none)
  | .error _ => (none, resetState s none)

/-- `MessageAccumulator.addChunk`: runs the switch, then pushes the
completed message (if any) onto `allCompletedMessages`. -/
def addChunk (parseJson : List Char → Option JsonV) (s : AccSt)
    (c : Chunk) : Option Msg × AccSt :=
  let (msg, s') := addChunkCore parseJson s c
  match msg with
  | some m => (some m, { s' with allCompletedMessages :=
                           s'.allCompletedMessages ++ [m] })
  | none => (none, s')

/-- Feeding a whole chunk list through the accumulator. -/
def accumulate (parseJson : List Char → Option JsonV) (s : AccSt)
    (cs : List Chunk) : AccSt :=
  cs.foldl (fun st c => (addChunk parseJson st c).2) s

/-! ## Turn orchestrator (src/agent/index.ts `Agent.run`) -/

/-- Observable events of one turn of `Agent.run`, in program order:
a stream chunk being yielded/processed, a tool invocation being started
(`_executeToolCall` called, promise stored), the transition to the
await/assembly phase after the stream loop, and a `tool_result` message
being yielded. -/
inductive TraceItem where
  | chunk (c : Chunk)
  | invoke (id : String)
  | awaitPhase
  | yieldResult (m : Msg)
deriving Repr

/-- State of the stream-processing loop of `Agent.run` (phase 1):
the accumulator, the `pendingToolPromises` map (each promise modelled by
its settled outcome: `.ok` resolution or `.error` rejection), the trace so
far, and the `streamEnded` / `llmError` flags. -/
structure StreamPhase where
  acc : AccSt
  pending : List (String × Except String LLMToolResult)
  trace : List TraceItem
  streamEnded : Bool
  llmError : Option String

/-- The dispatch loop run when the accumulator completes a `tool_use`
message: start one invocation per call (recording its promise outcome
and an `invoke` trace item), skipping ids already pending. -/
def dispatchCalls (exec : ToolCallReq → Except String LLMToolResult)
    (pending : List (String × Except String LLMToolResult)) :
    List ToolCallReq →
    List (String × Except String LLMToolResult) × List TraceItem
  | [] => (pending, [])
  | call :: rest =>
    if hasA pending call.id then dispatchCalls exec pending rest
    else
      let r := dispatchCalls exec (setA pending call.id (exec call)) rest
      (r.1, TraceItem.invoke call.id :: r.2)

/-- One iteration of the `for await (const chunk of stream)` loop:
yield the chunk, feed the accumulator, and if a `tool_use` message was
just completed start one invocation per call (skipping duplicate ids).
`exec` models `_executeToolCall` as the eventual outcome of the promise
it returns. -/
def processChunk (parseJson : List Char → Option JsonV)
    (exec : ToolCallReq → Except String LLMToolResult)
    (st : StreamPhase) (c : Chunk) : StreamPhase :=
  let r := addChunk parseJson st.acc c
  let step :=
    match r.1 with
    | some (.toolUse _ calls) => dispatchCalls exec st.pending calls
    | _ => (st.pending, ([] : List TraceItem))
  { acc := r.2
  , pending := step.1
  , trace := st.trace ++ [TraceItem.chunk c] ++ step.2
  , streamEnded := st.streamEnded || c = .stream_end ||
      (match c with | .error _ => true | _ => false)
  , llmError := match c with | .error m => some m | _ => st.llmError }

/-- Phase 3 inner loop: await (look up) each call's promise in order,
synthesizing an `is_error` result when the promise is missing or
rejected; each processed promise is deleted from the map. -/
def processCalls (pending : List (String × Except String LLMToolResult)) :
    List ToolCallReq →
    List LLMToolResult × List (String × Except String LLMToolResult)
  | [] => ([], pending)
  | call :: rest =>
    let r : LLMToolResult :=
      match lookupA pending call.id with
      | none =>
        { tool_call_id := call.id
        , content := .text "Internal error: Tool execution promise not found."
        , is_error := true }
      | some (.ok res) => res
      | some (.error e) =>
        { tool_call_id := call.id
        , content := .text ("Tool execution failed: " ++ e)
        , is_error := true }
    let (rs, pending') := processCalls (eraseA pending call.id) rest
    (r :: rs, pending')

/-- Phase 3 outer loop over the turn's accumulated messages: every
`tool_use` message with a non-empty call list yields exactly one
`tool_result` message; everything else is skipped. -/
def buildResults (pending : List (String × Except String LLMToolResult)) :
    List Msg → List Msg × List (String × Except String LLMToolResult)
  | [] => ([], pending)
  | m :: rest =>
    match m with
    | .toolUse _ (call :: calls) =>
      let (rs, pending') := processCalls pending (call :: calls)
      let (ms, pending'') := buildResults pending' rest
      (Msg.toolResult rs :: ms, pending'')
    | _ => buildResults pending rest

/-- Does `Agent.run` count this accumulated message as a processed
tool-use batch (`processedAnyTools`)? -/
def isToolUseWithCalls : Msg → Bool
  | .toolUse _ (_ :: _) => true
  | _ => false

/-- The per-turn observable result of `Agent.run`. -/
structure TurnResult where
  trace : List TraceItem
  accMessages : List Msg
  resultMessages : List Msg
  processedAnyTools : Bool

/-- The initial state of the stream-processing loop of a turn. -/
def streamInit : StreamPhase :=
  { acc := AccSt.init, pending := [], trace := []
  , streamEnded := false, llmError := none }

/-- One turn of `Agent.run`: stream loop, error propagation, history
append of accumulated messages, then the tool-result assembly loop.
`chunks` is the (finite) chunk sequence produced by the adapter for this
turn. -/
def runTurn (parseJson : List Char → Option JsonV)
    (exec : ToolCallReq → Except String LLMToolResult)
    (chunks : List Chunk) : Except String TurnResult :=
  let stF := chunks.foldl (processChunk parseJson exec) streamInit
  match stF.llmError with
  | some e => .error e
  | none =>
    if !stF.streamEnded then .error "LLM stream ended unexpectedly."
    else
      let accMsgs := stF.acc.allCompletedMessages
      let built := buildResults stF.pending accMsgs
      Except.ok
        { trace := stF.trace ++ [TraceItem.awaitPhase] ++
            built.1.map TraceItem.yieldResult
        , accMessages := accMsgs
        , resultMessages := built.1
        , processedAnyTools := accMsgs.any isToolUseWithCalls }

/-- What a `run` invocation yields to its caller: raw chunks and
`tool_result` messages. -/
inductive RunOut where
  | chunk (c : Chunk)
  | msg (m : Msg)
deriving Repr

/-- The `while (true)` turn loop of `Agent.run`, fuel-bounded (the source
loop may genuinely diverge if the model requests tools forever; `none`
models fuel exhaustion, never reached by terminating executions).
`llm` models `llmAdapter.createCompletion` applied to the current
history. Returns the yielded items and the final message history. -/
def runAgent (parseJson : List Char → Option JsonV)
    (exec : ToolCallReq → Except String LLMToolResult)
    (llm : List Msg → List Chunk) :
    Nat → List Msg → Option (Except String (List RunOut) × List Msg)
  | 0, _ => none
  | fuel + 1, history =>
    let chunks := llm history
    match runTurn parseJson exec chunks with
    | .error e => some (.error e, history)
    | .ok t =>
      let outs := chunks.map RunOut.chunk ++ t.resultMessages.map RunOut.msg
      let history' := history ++ t.accMessages ++ t.resultMessages
      if t.processedAnyTools then
        match runAgent parseJson exec llm fuel history' with
        | none => none
        | some (.error e, h) => some (.error e, h)
        | some (.ok outs2, h) => some (.ok (outs ++ outs2), h)
      else
        some (.ok outs, history')

/-- `Agent.run(newMessage)`: pushes the new message onto the history and
enters the turn loop. -/
def run (parseJson : List Char → Option JsonV)
    (exec : ToolCallReq → Except String LLMToolResult)
    (llm : List Msg → List Chunk) (fuel : Nat) (history : List Msg)
    (newMessage : Msg) : Option (Except String (List RunOut) × List Msg) :=
  runAgent parseJson exec llm fuel (history ++ [newMessage])

/-! ## Thinking-tag segmenter
(`parseNextInBuffer` and its driving loops inside
`ClaudeAdapter.createCompletion`, part_005) -/

/-- `thinkingStartTag`. -/
def tagOpen : List Char := '<' :: 't' :: 'h' :: 'i' :: 'n' :: 'k' :: 'i' :: 'n' :: 'g' :: '>' :: []

/-- `thinkingEndTag`. -/
def tagClose : List Char := '<' :: '/' :: 't' :: 'h' :: 'i' :: 'n' :: 'k' :: 'i' :: 'n' :: 'g' :: '>' :: []

/-- `parserState`. -/
inductive PMode where
  | idle
  | text
  | thinking
deriving Repr, DecidableEq

/-- The segmenter's mutable locals: `parserState` and `currentTextBuffer`. -/
structure SegSt where
  mode : PMode
  buffer : List Char
deriving Repr, DecidableEq

/-- JS `String.prototype.indexOf` for a non-empty pattern: index of the
first occurrence of `pat` as a contiguous substring (`none` = `-1`). -/
def indexOfSub (pat : List Char) : List Char → Option Nat
  | [] => none
  | c :: rest =>
    if pat.isPrefixOf (c :: rest) then some 0
    else (indexOfSub pat rest).map (· + 1)

/-- JS `String.prototype.indexOf` for a single character. -/
def indexOfChar (ch : Char) : List Char → Option Nat
  | [] => none
  | c :: rest =>
    if c = ch then some 0 else (indexOfChar ch rest).map (· + 1)

/-- `parseNextInBuffer(isFinalChunk)`: one parsing step over the buffer.
Returns the yielded chunks and the updated state; consuming
`processedLength` characters is folded into the returned buffer
(`currentTextBuffer.substring(processed)` at the call sites). The clamp
`Math.max(0, Math.min(processed, length))` is inherent in `List.drop`. -/
def parseNext (isFinal : Bool) (s : SegSt) : List Chunk × SegSt :=
  let b := s.buffer
  if b.isEmpty then ([], s)
  else
    match s.mode with
    | .idle =>
      match indexOfSub tagOpen b with
      | some 0 =>
        ([.thinking_start], ⟨.thinking, b.drop tagOpen.length⟩)
      | some i =>
        ([.text_start, .text_delta (b.take i), .text_end, .thinking_start],
         ⟨.thinking, b.drop (i + tagOpen.length)⟩)
      | none =>
        match indexOfChar '<' b with
        | some 0 =>
          if !isFinal && b.length < tagOpen.length then ([], s)
          else ([.text_start, .text_delta ['<']], ⟨.text, b.drop 1⟩)
        | some j =>
          if !isFinal && b.length < j + tagOpen.length then
            ([.text_start, .text_delta (b.take j)], ⟨.text, b.drop j⟩)
          else
            ([.text_start, .text_delta (b.take (j + 1))],
             ⟨.text, b.drop (j + 1)⟩)
        | none => ([.text_start, .text_delta b], ⟨.text, []⟩)
    | .text => ([.text_delta b], ⟨.text, []⟩)
    | .thinking =>
      match indexOfSub tagClose b with
      | some e =>
        ((if e = 0 then [] else [.thinking_delta (b.take e)]) ++
           [.thinking_end],
         ⟨.idle, b.drop (e + tagClose.length)⟩)
      | none =>
        match indexOfChar '<' b with
        | some j =>
          if ['<', '/'].isPrefixOf (b.drop j) then
            if !isFinal && b.length < j + tagClose.length then
              ((if j = 0 then [] else [.thinking_delta (b.take j)]),
               ⟨.thinking, b.drop j⟩)
            else
              ([.thinking_delta (b.take (j + 1))], ⟨.thinking, b.drop (j + 1)⟩)
          else
            ((if j = 0 then [] else [.thinking_delta (b.take j)]) ++
               [.thinking_delta ['<']],
             ⟨.thinking, b.drop (j + 1)⟩)
        | none => ([.thinking_delta b], ⟨.thinking, []⟩)

/-- The buffer-processing `while` loop run after appending each delivered
fragment (`content_block_delta` handler): keep parsing while progress is
made; stop when the step consumes nothing (waiting for more input) or
the buffer is empty. Fuel-bounded; each productive step strictly shrinks
the buffer, so `buffer.length + 1` fuel always reaches the loop's own
exit condition. -/
def feedLoop : Nat → SegSt → List Chunk × SegSt
  | 0, s => ([], s)
  | fuel + 1, s =>
    if s.buffer.isEmpty then ([], s)
    else
      let r := parseNext false s
      if r.2.buffer.length < s.buffer.length then
        let r2 := feedLoop fuel r.2
        (r.1 ++ r2.1, r2.2)
      else r

/-- The forced-flush `while` loop of the `content_block_stop` handler:
parse with `isFinalChunk = true` until the buffer is empty; if a step
makes no progress the source clears the buffer and breaks (a logged
safeguard, proved unreachable below). -/
def flushLoop : Nat → SegSt → List Chunk × SegSt
  | 0, s => ([], s)
  | fuel + 1, s =>
    if s.buffer.isEmpty then ([], s)
    else
      let r := parseNext true s
      if r.2.buffer.length < s.buffer.length then
        let r2 := flushLoop fuel r.2
        (r.1 ++ r2.1, r2.2)
      else (r.1, ⟨r.2.mode, []⟩)

/-- `yieldCurrentStateEnd`. -/
def yieldCurrentStateEnd : PMode → List Chunk
  | .idle => []
  | .text => [.text_end]
  | .thinking => [.thinking_end]

/-- Delivery of one raw text fragment (`content_block_delta` with a
`text_delta`): append to the buffer, then run the processing loop. -/
def feedFragment (s : SegSt) (frag : List Char) : List Chunk × SegSt :=
  let s1 : SegSt := ⟨s.mode, s.buffer ++ frag⟩
  feedLoop (s1.buffer.length + 1) s1

/-- Delivery of a whole fragment sequence. -/
def feedAll (s : SegSt) : List (List Char) → List Chunk × SegSt
  | [] => ([], s)
  | f :: fs =>
    let r := feedFragment s f
    let r2 := feedAll r.2 fs
    (r.1 ++ r2.1, r2.2)

/-- One text block's worth of segmentation: feed every fragment, then the
forced flush — everything the `content_block_stop` handler does before
`yieldCurrentStateEnd`. -/
def segmentCore (frags : List (List Char)) : List Chunk × SegSt :=
  let r := feedAll ⟨.idle, []⟩ frags
  let r2 := flushLoop (r.2.buffer.length + 1) r.2
  (r.1 ++ r2.1, r2.2)

/-- The full event sequence emitted for one text block, including the
final `yieldCurrentStateEnd`. -/
def segmentChunks (frags : List (List Char)) : List Chunk :=
  let r := segmentCore frags
  r.1 ++ yieldCurrentStateEnd r.2.mode

/-- Reinsertion rendering: delta payloads verbatim, plus the marker
string consumed at each `thinking` span boundary the parser recognized.
Applied to the parsing-phase events, this recovers the raw input. -/
def renderChunk : Chunk → List Char
  | .text_delta d => d
  | .thinking_delta d => d
  | .thinking_start => tagOpen
  | .thinking_end => tagClose
  | _ => []

/-- `renderChunk` over a whole event list. -/
def renderChunks (cs : List Chunk) : List Char :=
  (cs.map renderChunk).flatten

/-- Concatenation of the `text_delta`/`thinking_delta` payloads only. -/
def deltaText (cs : List Chunk) : List Char :=
  (cs.map (fun c =>
    match c with
    | .text_delta d => d
    | .thinking_delta d => d
    | _ => [])).flatten

/-! ## Concrete instantiations used by witnesses -/

/-- A tiny concrete stand-in for the external `JSON.parse` used to
instantiate witnesses: parses exactly the empty object literal. -/
def demoParse (s : List Char) : Option JsonV :=
  if s = ['\x7b', '\x7d'] then some (.obj []) else none

/-- A concrete promise-outcome function for witnesses: every started
invocation resolves successfully. -/
def demoExec (call : ToolCallReq) : Except String LLMToolResult :=
  .ok { tool_call_id := call.id, content := .text "ok", is_error := false }

/-! ## Helpers used by the theorem statements -/

/-- Indices (starting at `idx`) of the transports whose connection
attempt succeeded. -/
def successIndicesFrom (idx : Nat) : List (Option (List RawTool)) → List Nat
  | [] => []
  | none :: os => successIndicesFrom (idx + 1) os
  | some _ :: os => idx :: successIndicesFrom (idx + 1) os

/-- The non-empty call lists of the `tool_use` messages of a turn, in
order: the batches for which `Agent.run` assembles `tool_result`
messages. -/
def toolUseBatches (msgs : List Msg) : List (List ToolCallReq) :=
  msgs.filterMap fun m =>
    match m with
    | .toolUse _ (c :: cs) => some (c :: cs)
    | _ => none

/-- The result entry `Agent.run` produces for one call against a fixed
promise map: the resolved value, or a synthesized `is_error` entry when
the promise is missing or rejected. -/
def awaitOutcome (pending : List (String × Except String LLMToolResult))
    (call : ToolCallReq) : LLMToolResult :=
  match lookupA pending call.id with
  | none =>
    { tool_call_id := call.id
    , content := .text "Internal error: Tool execution promise not found."
    , is_error := true }
  | some (.ok res) => res
  | some (.error e) =>
    { tool_call_id := call.id
    , content := .text ("Tool execution failed: " ++ e)
    , is_error := true }

/-- Is this trace item a started tool invocation? -/
def isInvoke : TraceItem → Bool
  | .invoke _ => true
  | _ => false

/-- Is this trace item the processing of the terminal `stream_end`
chunk? -/
def isEndChunk : TraceItem → Bool
  | .chunk .stream_end => true
  | _ => false

/-- Scanner for the claimed temporal ordering: `true` iff every started
invocation in the trace is preceded by the processing of a terminal
`stream_end` chunk. The flag records whether a terminal chunk has been
seen. -/
def invokesPrecededByEndFlag (seenEnd : Bool) : List TraceItem → Bool
  | [] => true
  | it :: rest =>
    if isEndChunk it then invokesPrecededByEndFlag true rest
    else if isInvoke it then
      seenEnd && invokesPrecededByEndFlag seenEnd rest
    else invokesPrecededByEndFlag seenEnd rest

/-- `true` iff every started invocation comes after the terminal
`stream_end` chunk was processed. -/
def invokesPrecededByEnd (tr : List TraceItem) : Bool :=
  invokesPrecededByEndFlag false tr

/-- `true` iff no invocation starts after the terminal `stream_end`
chunk has been processed — the ordering asserted by the claim that
dispatch begins before the terminal end event. -/
def noInvokeAfterEnd : List TraceItem → Bool
  | [] => true
  | .chunk .stream_end :: rest => rest.all fun it => !isInvoke it
  | _ :: rest => noInvokeAfterEnd rest

/-! ## Concrete inputs for counterexamples and witnesses -/

/-- Provider one's advertisement of tool `x` (distinct description). -/
def c3t1 : RawTool := ⟨"x", some "first", .null⟩

/-- Provider two's advertisement of tool `x` (distinct description). -/
def c3t2 : RawTool := ⟨"x", some "second", .null⟩

/-- A clean model stream containing one tool-call span: the accumulator
finalizes the `tool_use` message only at the terminal `stream_end`. -/
def c8chunks : List Chunk :=
  [.stream_start, .tool_use_start "a" "sum", .tool_use_delta "a" [],
   .tool_use_end "a", .stream_end]

/-- The turn result for `c8chunks` (total by construction; the fallback
is never reached). -/
def c8turn : TurnResult :=
  (runTurn demoParse demoExec c8chunks).toOption.getD
    ⟨[], [], [], false⟩

/-! # Theorems

Helper lemmas first, then one named theorem per claim (with witnesses /
counterexamples as required). -/

theorem lookupA_mem {α : Type} {m : List (String × α)} {k : String} {v : α}
    (h : lookupA m k = some v) : (k, v) ∈ m := by
  induction m with
  | nil => simp [lookupA] at h
  | cons p rest ih =>
    obtain ⟨k', v'⟩ := p
    by_cases hk : k' = k
    · subst hk
      simp [lookupA] at h
      simp [h]
    · simp [lookupA, hk] at h
      exact List.mem_cons_of_mem _ (ih h)

theorem eraseA_sublist {α : Type} (m : List (String × α)) (k : String) :
    (eraseA m k).Sublist m := by
  induction m with
  | nil => simp [eraseA]
  | cons p rest ih =>
    obtain ⟨k', v'⟩ := p
    by_cases hk : k' = k
    · rw [eraseA, if_pos hk]
      exact List.sublist_cons_self _ _
    · rw [eraseA, if_neg hk]
      exact ih.cons₂ _

theorem lookupA_eraseA_ne {α : Type} (m : List (String × α))
    {k' k : String} (h : k' ≠ k) :
    lookupA (eraseA m k') k = lookupA m k := by
  induction m with
  | nil => simp [eraseA]
  | cons p rest ih =>
    obtain ⟨k₀, v₀⟩ := p
    by_cases hk : k₀ = k'
    · subst hk
      have hne : k₀ ≠ k := h
      rw [eraseA, if_pos rfl, lookupA, if_neg hne]
    · rw [eraseA, if_neg hk, lookupA, lookupA]
      by_cases hk2 : k₀ = k
      · rw [if_pos hk2, if_pos hk2]
      · rw [if_neg hk2, if_neg hk2, ih]

theorem connectAll_go_spec (rest : List (Option (List RawTool))) :
    ∀ (idx : Nat) (tools : List LLMTool) (map : List (String × Nat))
      (active : List Nat),
      (connectAll.go idx rest tools map active).1 =
        tools ++ (rest.filterMap (Option.map (List.map toLLMTool))).flatten ∧
      (connectAll.go idx rest tools map active).2.2 =
        active ++ successIndicesFrom idx rest := by
  induction rest with
  | nil => intro idx tools map active; simp [connectAll.go, successIndicesFrom]
  | cons o os ih =>
    intro idx tools map active
    cases o with
    | none =>
      simpa [connectAll.go, connectOne, successIndicesFrom] using
        ih (idx + 1) tools map active
    | some raws =>
      have h := ih (idx + 1) (tools ++ raws.map toLLMTool)
        ((raws.map toLLMTool).foldl
          (fun acc t => if t.name ≠ "" then setA acc t.name idx else acc) map)
        (active ++ [idx])
      simp [connectAll.go, connectOne, successIndicesFrom] at h ⊢
      exact h

theorem connectAll_fst (outcomes : List (Option (List RawTool))) :
    (connectAll outcomes).1 =
      (outcomes.filterMap (Option.map (List.map toLLMTool))).flatten := by
  simpa [connectAll] using (connectAll_go_spec outcomes 0 [] [] []).1

theorem connectAll_active (outcomes : List (Option (List RawTool))) :
    (connectAll outcomes).2.2 = successIndicesFrom 0 outcomes := by
  simpa [connectAll] using (connectAll_go_spec outcomes 0 [] [] []).2

theorem successIndicesFrom_eq_nil {os : List (Option (List RawTool))} :
    ∀ {idx : Nat}, successIndicesFrom idx os = [] ↔ ∀ o ∈ os, o = none := by
  induction os with
  | nil => intro idx; simp [successIndicesFrom]
  | cons o os ih =>
    intro idx
    cases o with
    | none => simp [successIndicesFrom, ih]
    | some raws => simp [successIndicesFrom]

theorem dedupFirst_go_subset {t : LLMTool} :
    ∀ (ts : List LLMTool) (seen : List String),
      t ∈ dedupFirst.go ts seen → t ∈ ts := by
  intro ts
  induction ts with
  | nil => intro seen h; simp [dedupFirst.go] at h
  | cons t0 rest ih =>
    intro seen h
    by_cases hs : t0.name ∈ seen
    · simp [dedupFirst.go, hs] at h
      exact List.mem_cons_of_mem _ (ih _ h)
    · simp [dedupFirst.go, hs] at h
      rcases h with h | h
      · simp [h]
      · exact List.mem_cons_of_mem _ (ih _ h)

theorem dedupFirst_go_names {r : LLMTool} :
    ∀ (ts : List LLMTool) (seen : List String),
      r ∈ ts → r.name ∉ seen →
      ∃ t ∈ dedupFirst.go ts seen, t.name = r.name := by
  intro ts
  induction ts with
  | nil => intro seen h; simp at h
  | cons t0 rest ih =>
    intro seen hmem hns
    rcases List.mem_cons.mp hmem with heq | htl
    · subst heq
      simp [dedupFirst.go, hns]
    · by_cases hs : t0.name ∈ seen
      · simp only [dedupFirst.go, if_pos hs]
        exact ih seen htl hns
      · simp only [dedupFirst.go, if_neg hs]
        by_cases hrn : r.name = t0.name
        · exact ⟨t0, List.mem_cons_self _ _, hrn.symm⟩
        · have hns' : r.name ∉ t0.name :: seen := by
            simp [hrn, hns]
          obtain ⟨t, ht, htn⟩ := ih (t0.name :: seen) htl hns'
          exact ⟨t, List.mem_cons_of_mem _ ht, htn⟩

/-- **C5.** For every list of configured providers, `connect` succeeds
whenever at least one provider connects: partial failures do not abort
the other connections, the surviving providers are exactly the
successfully connected ones, and the catalog reflects exactly the
survivors' tools (every catalog entry comes from a survivor, and every
survivor tool name is represented). `connect` fails with the
all-providers-unreachable error exactly when all of `N ≥ 1` providers
fail. -/
theorem c5_partial_provider_failure (outcomes : List (Option (List RawTool))) :
    ((∃ ts, some ts ∈ outcomes) →
      ∃ st, connect outcomes = Except.ok st ∧ getIsConnected st = true ∧
        st.activeClients = successIndicesFrom 0 outcomes ∧
        listTools st =
          dedupFirst
            (outcomes.filterMap (Option.map (List.map toLLMTool))).flatten ∧
        (∀ t ∈ listTools st, ∃ raws, some raws ∈ outcomes ∧
          t ∈ raws.map toLLMTool) ∧
        (∀ raws, some raws ∈ outcomes → ∀ rt ∈ raws,
          ∃ t ∈ listTools st, t.name = (toLLMTool rt).name)) ∧
    ((outcomes ≠ [] ∧ ∀ o ∈ outcomes, o = none) →
      connect outcomes =
        Except.error
          "MCPRouter: Failed to connect via ALL configured transports.") := by
  constructor
  · rintro ⟨ts, hts⟩
    have hne : outcomes ≠ [] := by
      intro h; subst h; simp at hts
    have hsucc : successIndicesFrom 0 outcomes ≠ [] := by
      intro h
      have := successIndicesFrom_eq_nil.mp h (some ts) hts
      simp at this
    rcases hca : connectAll outcomes with ⟨allT, cmap, act⟩
    have h1 : allT =
        (outcomes.filterMap (Option.map (List.map toLLMTool))).flatten := by
      have := connectAll_fst outcomes
      rw [hca] at this
      exact this
    have h2 : act = successIndicesFrom 0 outcomes := by
      have := connectAll_active outcomes
      rw [hca] at this
      exact this
    have hact : ¬act.isEmpty := by
      rw [h2]
      simpa [List.isEmpty_iff] using hsucc
    refine ⟨⟨act, dedupFirst allT, cmap, true⟩, ?_, ?_, ?_, ?_, ?_, ?_⟩
    · simp only [connect, hca]
      rw [if_neg (by simpa [List.isEmpty_iff] using hne), if_neg hact]
    · simp [getIsConnected, hact]
    · exact h2
    · simp [listTools, getIsConnected, hact, h1]
    · intro t ht
      simp only [listTools, getIsConnected] at ht
      rw [if_pos (by simp [hact])] at ht
      rw [h1] at ht
      have ht' := dedupFirst_go_subset _ _ (by simpa [dedupFirst] using ht)
      rw [List.mem_flatten] at ht'
      obtain ⟨l, hl, htl⟩ := ht'
      rw [List.mem_filterMap] at hl
      obtain ⟨o, ho, hol⟩ := hl
      cases o with
      | none => simp at hol
      | some raws =>
        simp at hol
        exact ⟨raws, ho, hol ▸ htl⟩
    · intro raws hraws rt hrt
      simp only [listTools, getIsConnected]
      rw [if_pos (by simp [hact]), h1]
      have hmem : toLLMTool rt ∈
          (outcomes.filterMap (Option.map (List.map toLLMTool))).flatten := by
        rw [List.mem_flatten]
        refine ⟨raws.map toLLMTool, ?_, List.mem_map_of_mem _ hrt⟩
        rw [List.mem_filterMap]
        exact ⟨some raws, hraws, by simp⟩
      simpa [dedupFirst] using
        dedupFirst_go_names _ [] hmem (by simp)
  · rintro ⟨hne, hall⟩
    have hsucc : successIndicesFrom 0 outcomes = [] :=
      successIndicesFrom_eq_nil.mpr hall
    rcases hca : connectAll outcomes with ⟨allT, cmap, act⟩
    have h2 : act = [] := by
      have := connectAll_active outcomes
      rw [hca] at this
      exact this.trans hsucc
    simp only [connect, hca]
    rw [if_neg (by simpa [List.isEmpty_iff] using hne), if_pos (by simp [h2])]

/-- Witness for C5: with providers `[success, failure]` the first
implication applies; with `[failure]` the second applies. -/
theorem c5_witness :
    ((∃ ts, some ts ∈ [some [c3t1], none]) ∧
      ∃ st, connect [some [c3t1], none] = Except.ok st ∧
        getIsConnected st = true ∧
        st.activeClients = successIndicesFrom 0 [some [c3t1], none] ∧
        listTools st =
          dedupFirst
            (([some [c3t1], none].filterMap
              (Option.map (List.map toLLMTool))).flatten) ∧
        (∀ t ∈ listTools st, ∃ raws, some raws ∈ [some [c3t1], none] ∧
          t ∈ raws.map toLLMTool) ∧
        (∀ raws, some raws ∈ [some [c3t1], none] → ∀ rt ∈ raws,
          ∃ t ∈ listTools st, t.name = (toLLMTool rt).name)) ∧
    ((([none] : List (Option (List RawTool))) ≠ [] ∧
        ∀ o ∈ ([none] : List (Option (List RawTool))), o = none) ∧
      connect [none] =
        Except.error
          "MCPRouter: Failed to connect via ALL configured transports.") := by
  constructor
  · exact ⟨⟨[c3t1], by simp⟩,
      (c5_partial_provider_failure [some [c3t1], none]).1 ⟨[c3t1], by simp⟩⟩
  · exact ⟨⟨by simp, by simp⟩,
      (c5_partial_provider_failure [none]).2 ⟨by simp, by simp⟩⟩

/-- **C3 counterexample.** Two providers advertise tool `"x"` with
distinct descriptions. After `connect`, the single catalog entry carries
the FIRST provider's description (`aggregatedTools` deduplication keeps
the first occurrence), while `toolClientMap` routes `"x"` to the LAST
provider (index 1). The claim's assertion that the catalog entry is
attributed to the provider that connected last is therefore false. -/
theorem c3_counterexample :
    ((connect [some [c3t1], some [c3t2]]).map
        (fun st => (st.aggregatedTools.map LLMTool.description,
                    lookupA st.toolClientMap "x"))
      = Except.ok (["first"], some 1)) ∧
    ("first" : String) ≠ "second" := by
  exact ⟨rfl, by decide⟩

/-- **C3 (amended).** When two providers each advertise a tool with the
same (non-empty) name, after `connect` the aggregated catalog contains
exactly one entry for that name — the FIRST-connected provider's catalog
entry — while invocation of that name dispatches to the LAST-registered
provider (`toolClientMap` is overwritten on collision, catalog dedup
keeps the first occurrence). -/
theorem c3_collision_first_catalog_last_dispatch (t1 t2 : RawTool)
    (n : String) (hn : n ≠ "") (h1 : t1.name = n) (h2 : t2.name = n) :
    ∃ st, connect [some [t1], some [t2]] = Except.ok st ∧
      st.aggregatedTools = [toLLMTool t1] ∧
      lookupA st.toolClientMap n = some 1 ∧
      (∀ providerCall args r, providerCall 1 n args = Except.ok r →
        callTool st providerCall n args = Except.ok r) ∧
      (∀ providerCall args e, providerCall 1 n args = Except.error e →
        callTool st providerCall n args =
          Except.error ("Failed to execute tool '" ++ n ++ "': " ++ e)) := by
  have hmapped1 : (toLLMTool t1).name = n := by simp [toLLMTool, h1]
  have hmapped2 : (toLLMTool t2).name = n := by simp [toLLMTool, h2]
  have hca : connectAll [some [t1], some [t2]] =
      ([toLLMTool t1, toLLMTool t2], [(n, 1)], [0, 1]) := by
    simp [connectAll, connectAll.go, connectOne, hmapped1, hmapped2, hn,
      setA]
  have hded : dedupFirst [toLLMTool t1, toLLMTool t2] = [toLLMTool t1] := by
    simp [dedupFirst, dedupFirst.go, hmapped1, hmapped2]
  refine ⟨⟨[0, 1], [toLLMTool t1], [(n, 1)], true⟩, ?_, rfl, ?_, ?_, ?_⟩
  · simp only [connect, hca]
    rw [if_neg (by simp), if_neg (by simp)]
    simp [hded]
  · simp [lookupA]
  · intro providerCall args r hp
    simp [callTool, getIsConnected, lookupA, hp]
  · intro providerCall args e hp
    simp [callTool, getIsConnected, lookupA, hp]

/-- Witness for the amended C3 at the concrete colliding providers. -/
theorem c3_witness :
    (c3t1.name = "x" ∧ c3t2.name = "x" ∧ ("x" : String) ≠ "") ∧
    (∃ st, connect [some [c3t1], some [c3t2]] = Except.ok st ∧
      st.aggregatedTools = [toLLMTool c3t1] ∧
      lookupA st.toolClientMap "x" = some 1 ∧
      (∀ providerCall args r, providerCall 1 "x" args = Except.ok r →
        callTool st providerCall "x" args = Except.ok r) ∧
      (∀ providerCall args e, providerCall 1 "x" args = Except.error e →
        callTool st providerCall "x" args =
          Except.error ("Failed to execute tool '" ++ "x" ++ "': " ++ e))) := by
  exact ⟨⟨rfl, rfl, by decide⟩,
    c3_collision_first_catalog_last_dispatch c3t1 c3t2 "x" (by decide) rfl rfl⟩

/-- **C4.** For every tool invocation by name: a name with no owning
provider fails inside the router with the not-found error; a
provider-level failure during the forwarded call is re-thrown by the
router but caught by `_executeToolCall`, which wraps every thrown error
into an `is_error := true` `LLMToolResult` instead of propagating an
exception — so a single tool failure never aborts the conversation
turn. -/
theorem c4_tool_failure_isolated :
    (∀ st providerCall name args, getIsConnected st = true →
      lookupA st.toolClientMap name = none →
      callTool st providerCall name args =
        Except.error ("Tool '" ++ name ++ "' not found or unavailable.")) ∧
    (∀ st providerCall name args idx e, getIsConnected st = true →
      lookupA st.toolClientMap name = some idx →
      providerCall idx name args = Except.error e →
      callTool st providerCall name args =
        Except.error ("Failed to execute tool '" ++ name ++ "': " ++ e)) ∧
    (∀ st providerCall call e,
      callTool st providerCall call.name call.input = Except.error e →
      executeToolCall st providerCall call =
        { tool_call_id := call.id
        , content := .text ("Error executing tool: " ++ e)
        , is_error := true }) := by
  refine ⟨?_, ?_, ?_⟩
  · intro st providerCall name args hconn hlk
    simp [callTool, hconn, hlk]
  · intro st providerCall name args idx e hconn hlk hp
    simp [callTool, hconn, hlk, hp]
  · intro st providerCall call e herr
    simp [executeToolCall, herr]

/-- Witness for C4: a connected router with an empty tool map rejects an
unknown name, and the agent-side wrapper converts that thrown error into
an `is_error` result. -/
theorem c4_witness :
    (getIsConnected ⟨[0], [], [], true⟩ = true ∧
      lookupA (RouterSt.mk [0] [] [] true).toolClientMap "x" = none ∧
      callTool ⟨[0], [], [], true⟩ (fun _ _ _ => Except.error "boom") "x"
          JsonV.null =
        Except.error "Tool 'x' not found or unavailable.") ∧
    executeToolCall ⟨[0], [], [], true⟩ (fun _ _ _ => Except.error "boom")
        ⟨"id1", "x", JsonV.null⟩ =
      { tool_call_id := "id1"
      , content := .text "Error executing tool: Tool 'x' not found or unavailable."
      , is_error := true } := by
  constructor
  · exact ⟨rfl, rfl, c4_tool_failure_isolated.1 _ _ _ _ rfl rfl⟩
  · exact c4_tool_failure_isolated.2.2 ⟨[0], [], [], true⟩
      (fun _ _ _ => Except.error "boom") ⟨"id1", "x", JsonV.null⟩ _ rfl

/-- **C6.** When the accumulated argument text of a tool call fails to
parse at its `tool_use_end` event, that single call is dropped: no
message is emitted, the call is not appended to `completedToolCalls`
(so it is never promoted to a `tool_use` request entry or a result
entry), only its own entry leaves `currentToolCalls`, and every other
call of the turn — pending or already finished — is unaffected. -/
theorem c6_parse_failure_drops_call (parse : List Char → Option JsonV)
    (s : AccSt) (id : String) (entry : AccToolData)
    (hlk : lookupA s.currentToolCalls id = some entry)
    (hfail : parse (argsOrDefault entry.argsJson) = none) :
    addChunk parse s (.tool_use_end id) =
      (none, { s with currentToolCalls := eraseA s.currentToolCalls id }) ∧
    (addChunk parse s (.tool_use_end id)).2.completedToolCalls =
      s.completedToolCalls ∧
    (∀ k, k ≠ id →
      lookupA (addChunk parse s (.tool_use_end id)).2.currentToolCalls k =
        lookupA s.currentToolCalls k) ∧
    (addChunk parse s (.tool_use_end id)).2.allCompletedMessages =
      s.allCompletedMessages := by
  have hmain : addChunk parse s (.tool_use_end id) =
      (none, { s with currentToolCalls := eraseA s.currentToolCalls id }) := by
    simp [addChunk, addChunkCore, hlk, hfail]
  refine ⟨hmain, ?_, ?_, ?_⟩
  · rw [hmain]
  · intro k hk
    rw [hmain]
    exact lookupA_eraseA_ne _ (fun h => hk h.symm)
  · rw [hmain]

/-- Witness for C6: a state holding two pending calls; call `"a"` has
unparsable arguments and is dropped, call `"b"` is untouched. -/
theorem c6_witness :
    (lookupA [("a", AccToolData.mk "a" "sum" ['n', 'o']),
              ("b", AccToolData.mk "b" "mul" [])] "a" =
        some (AccToolData.mk "a" "sum" ['n', 'o']) ∧
      demoParse (argsOrDefault ['n', 'o']) = none) ∧
    addChunk demoParse
        ⟨none, [], [("a", AccToolData.mk "a" "sum" ['n', 'o']),
                    ("b", AccToolData.mk "b" "mul" [])], [], []⟩
        (.tool_use_end "a") =
      (none,
       { AccSt.mk none []
           [("a", AccToolData.mk "a" "sum" ['n', 'o']),
            ("b", AccToolData.mk "b" "mul" [])] [] [] with
         currentToolCalls :=
           eraseA [("a", AccToolData.mk "a" "sum" ['n', 'o']),
                   ("b", AccToolData.mk "b" "mul" [])] "a" }) := by
  refine ⟨⟨rfl, rfl⟩, ?_⟩
  exact (c6_parse_failure_drops_call demoParse
    ⟨none, [], [("a", AccToolData.mk "a" "sum" ['n', 'o']),
                ("b", AccToolData.mk "b" "mul" [])], [], []⟩
    "a" (AccToolData.mk "a" "sum" ['n', 'o']) rfl rfl).1

/-- **C10.** A tool call reaching its `tool_use_end` with an empty
accumulated argument buffer is completed with the empty-object input
(`JSON.parse(argsJson || "\x7b\x7d")` falls back to the empty object
literal): the call is appended to `completedToolCalls` with input `{}`,
not dropped and not treated as a parse failure. -/
theorem c10_empty_args_empty_object (parse : List Char → Option JsonV)
    (s : AccSt) (id : String) (entry : AccToolData)
    (hlk : lookupA s.currentToolCalls id = some entry)
    (hempty : entry.argsJson = [])
    (hjs : parse ['\x7b', '\x7d'] = some (JsonV.obj [])) :
    addChunk parse s (.tool_use_end id) =
      (none,
       { s with
         completedToolCalls := s.completedToolCalls ++
           [⟨entry.id, entry.name, JsonV.obj []⟩],
         currentToolCalls := eraseA s.currentToolCalls id }) := by
  simp [addChunk, addChunkCore, hlk, hempty, argsOrDefault, hjs]

/-- Witness for C10: call `"a"` ends with an empty buffer and completes
with input `{}`. -/
theorem c10_witness :
    (lookupA [("a", AccToolData.mk "a" "sum" [])] "a" =
        some (AccToolData.mk "a" "sum" []) ∧
      (AccToolData.mk "a" "sum" []).argsJson = [] ∧
      demoParse ['\x7b', '\x7d'] = some (JsonV.obj [])) ∧
    addChunk demoParse
        ⟨none, [], [("a", AccToolData.mk "a" "sum" [])], [], []⟩
        (.tool_use_end "a") =
      (none,
       { AccSt.mk none [] [("a", AccToolData.mk "a" "sum" [])] [] [] with
         completedToolCalls :=
           [] ++ [⟨"a", "sum", JsonV.obj []⟩],
         currentToolCalls :=
           eraseA [("a", AccToolData.mk "a" "sum" [])] "a" }) := by
  refine ⟨⟨rfl, rfl, rfl⟩, ?_⟩
  exact c10_empty_args_empty_object demoParse
    ⟨none, [], [("a", AccToolData.mk "a" "sum" [])], [], []⟩
    "a" (AccToolData.mk "a" "sum" []) rfl rfl rfl

/-- **C9.** `addChunk` is a total function — it always returns a
completed message or `none`, never an exception — and malformed
sequences are absorbed: a `tool_use_delta` or `tool_use_end` for an
unknown call id leaves the state unchanged, an `error` chunk resets the
in-progress state, a `text_delta` without a preceding `text_start`
auto-opens an assistant message, and the internal `JSON.parse` guard at
`tool_use_end` never lets a failure escape (the result is `none` in
every case, for every parser behaviour). -/
theorem c9_malformed_sequences_absorbed :
    (∀ parse s id d, lookupA s.currentToolCalls id = none →
      addChunk parse s (.tool_use_delta id d) = (none, s)) ∧
    (∀ parse s id, lookupA s.currentToolCalls id = none →
      addChunk parse s (.tool_use_end id) = (none, s)) ∧
    (∀ parse s m, addChunk parse s (.error m) = (none, resetState s none)) ∧
    (∀ parse s d, s.currentRole = none →
      addChunk parse s (.text_delta d) =
        (none, { s with currentRole := some true, currentContent := d })) ∧
    (∀ parse s id, (addChunk parse s (.tool_use_end id)).1 = none) := by
  refine ⟨?_, ?_, ?_, ?_, ?_⟩
  · intro parse s id d hlk
    simp [addChunk, addChunkCore, hlk]
  · intro parse s id hlk
    simp [addChunk, addChunkCore, hlk]
  · intro parse s m
    simp [addChunk, addChunkCore]
  · intro parse s d hrole
    simp [addChunk, addChunkCore, hrole, resetState]
  · intro parse s id
    rcases hlk : lookupA s.currentToolCalls id with _ | entry
    · simp [addChunk, addChunkCore, hlk]
    · rcases hp : parse (argsOrDefault entry.argsJson) with _ | v
      · simp [addChunk, addChunkCore, hlk, hp]
      · simp [addChunk, addChunkCore, hlk, hp]

/-- Witness for C9 at the empty accumulator and the demo parser. -/
theorem c9_witness :
    (lookupA AccSt.init.currentToolCalls "ghost" = none ∧
      AccSt.init.currentRole = none) ∧
    (addChunk demoParse AccSt.init (.tool_use_delta "ghost" ['1']) =
        (none, AccSt.init) ∧
      addChunk demoParse AccSt.init (.tool_use_end "ghost") =
        (none, AccSt.init) ∧
      addChunk demoParse AccSt.init (.error "boom") =
        (none, resetState AccSt.init none) ∧
      addChunk demoParse AccSt.init (.text_delta ['h', 'i']) =
        (none, { AccSt.init with
                 currentRole := some true,
                 currentContent := ['h', 'i'] }) ∧
      (addChunk demoParse AccSt.init (.tool_use_end "ghost")).1 = none) := by
  refine ⟨⟨rfl, rfl⟩, ?_, ?_, ?_, ?_, ?_⟩
  · exact c9_malformed_sequences_absorbed.1 demoParse AccSt.init "ghost" ['1'] rfl
  · exact c9_malformed_sequences_absorbed.2.1 demoParse AccSt.init "ghost" rfl
  · exact c9_malformed_sequences_absorbed.2.2.1 demoParse AccSt.init "boom"
  · exact c9_malformed_sequences_absorbed.2.2.2.1 demoParse AccSt.init
      ['h', 'i'] rfl
  · exact c9_malformed_sequences_absorbed.2.2.2.2 demoParse AccSt.init "ghost"

/-- The promise map stays well-formed: `_executeToolCall` always stamps
the call id into the result, so resolved promises carry their key. -/
def WfPending (pending : List (String × Except String LLMToolResult)) :
    Prop :=
  ∀ p ∈ pending, ∀ r, p.2 = Except.ok r → r.tool_call_id = p.1

theorem WfPending.of_sublist
    {p q : List (String × Except String LLMToolResult)}
    (hs : p.Sublist q) (h : WfPending q) : WfPending p :=
  fun x hx => h x (hs.mem hx)

theorem processCalls_snd_sublist
    (calls : List ToolCallReq) :
    ∀ pending, ((processCalls pending calls).2).Sublist pending := by
  induction calls with
  | nil => intro pending; simp [processCalls]
  | cons call rest ih =>
    intro pending
    simp only [processCalls]
    exact (ih (eraseA pending call.id)).trans (eraseA_sublist _ _)

theorem lookupA_processCalls_snd
    (calls : List ToolCallReq) :
    ∀ pending (id : String), id ∉ calls.map ToolCallReq.id →
      lookupA (processCalls pending calls).2 id = lookupA pending id := by
  induction calls with
  | nil => intro pending id _; simp [processCalls]
  | cons call rest ih =>
    intro pending id hid
    simp only [List.map_cons, List.mem_cons, not_or] at hid
    simp only [processCalls]
    rw [ih _ _ hid.2, lookupA_eraseA_ne _ (fun h => hid.1 h.symm)]

theorem processCalls_entries
    (calls : List ToolCallReq) :
    ∀ pending, (calls.map ToolCallReq.id).Nodup →
      (processCalls pending calls).1 = calls.map (awaitOutcome pending) := by
  induction calls with
  | nil => intro pending _; simp [processCalls]
  | cons call rest ih =>
    intro pending hnd
    simp only [List.map_cons, List.nodup_cons, List.mem_map] at hnd
    simp only [processCalls, List.map_cons, List.cons.injEq]
    refine ⟨rfl, ?_⟩
    rw [ih (eraseA pending call.id) hnd.2]
    refine List.map_congr_left ?_
    intro c hc
    have hne : c.id ≠ call.id := by
      intro h
      exact hnd.1 ⟨c, hc, h⟩
    simp only [awaitOutcome,
      lookupA_eraseA_ne _ (fun h => hne h.symm)]

theorem buildResults_spec (msgs : List Msg) :
    ∀ pending, WfPending pending →
      (((toolUseBatches msgs).map (List.map ToolCallReq.id)).flatten).Nodup →
      (buildResults pending msgs).1 =
        (toolUseBatches msgs).map
          (fun batch => Msg.toolResult (batch.map (awaitOutcome pending))) := by
  induction msgs with
  | nil => intro pending _ _; simp [buildResults, toolUseBatches]
  | cons m rest ih =>
    intro pending hwf hnd
    match m with
    | .user c =>
      simpa [buildResults, toolUseBatches] using
        ih pending hwf (by simpa [toolUseBatches] using hnd)
    | .assistant c =>
      simpa [buildResults, toolUseBatches] using
        ih pending hwf (by simpa [toolUseBatches] using hnd)
    | .assistantThinking c =>
      simpa [buildResults, toolUseBatches] using
        ih pending hwf (by simpa [toolUseBatches] using hnd)
    | .toolResult rs =>
      simpa [buildResults, toolUseBatches] using
        ih pending hwf (by simpa [toolUseBatches] using hnd)
    | .toolUse content [] =>
      simpa [buildResults, toolUseBatches] using
        ih pending hwf (by simpa [toolUseBatches] using hnd)
    | .toolUse content (c :: cs) =>
      have hbatches : toolUseBatches (Msg.toolUse content (c :: cs) :: rest) =
          (c :: cs) :: toolUseBatches rest := by
        simp [toolUseBatches]
      rw [hbatches] at hnd
      simp only [List.map_cons, List.flatten_cons, List.nodup_append] at hnd
      obtain ⟨hnd1, hnd2, hdisj⟩ := hnd
      have hpend' := processCalls_snd_sublist (c :: cs) pending
      have hwf' : WfPending (processCalls pending (c :: cs)).2 :=
        WfPending.of_sublist hpend' hwf
      simp only [buildResults, hbatches, List.map_cons, List.cons.injEq]
      constructor
      · rw [processCalls_entries (c :: cs) pending hnd1, List.map_cons]
      · rw [ih _ hwf' hnd2]
        refine List.map_congr_left ?_
        intro batch hbatch
        congr 1
        refine List.map_congr_left ?_
        intro call hcall
        have hnotin : call.id ∉ (c :: cs).map ToolCallReq.id := by
          intro hmem
          refine hdisj hmem ?_
          rw [List.mem_flatten]
          exact ⟨batch.map ToolCallReq.id,
            List.mem_map_of_mem _ hbatch, List.mem_map_of_mem _ hcall⟩
        simp only [awaitOutcome, lookupA_processCalls_snd _ _ _ hnotin]

/-- **C2.** For every `tool_use` message with `N` tool calls finalized by
the accumulator in a turn (under the spec's invariant that call ids are
unique within the turn, and with the promise map well-formed as
`_executeToolCall` guarantees), `Agent.run` produces exactly one
`tool_result` message per such message, containing exactly `N` entries
whose `tool_call_id`s are the `N` call ids in order (hence equal as
sets), synthesizing an `is_error := true` entry for any call whose
invocation rejected or whose pending invocation task is missing, before
the turn proceeds. -/
theorem c2_tool_result_one_to_one
    (pending : List (String × Except String LLMToolResult))
    (msgs : List Msg)
    (hwf : WfPending pending)
    (hnd : (((toolUseBatches msgs).map (List.map ToolCallReq.id)).flatten).Nodup) :
    ((buildResults pending msgs).1).length = (toolUseBatches msgs).length ∧
    (buildResults pending msgs).1 =
      (toolUseBatches msgs).map
        (fun batch => Msg.toolResult (batch.map (awaitOutcome pending))) ∧
    (∀ batch ∈ toolUseBatches msgs, ∀ call ∈ batch,
      (awaitOutcome pending call).tool_call_id = call.id ∧
      ((lookupA pending call.id = none ∨
          ∃ e, lookupA pending call.id = some (Except.error e)) →
        (awaitOutcome pending call).is_error = true)) := by
  have hmain := buildResults_spec msgs pending hwf hnd
  refine ⟨by rw [hmain, List.length_map], hmain, ?_⟩
  intro batch _ call _
  constructor
  · rcases hlk : lookupA pending call.id with _ | out
    · simp [awaitOutcome, hlk]
    · rcases out with e | res
      · simp [awaitOutcome, hlk]
      · have := hwf _ (lookupA_mem hlk) res rfl
        simp only [awaitOutcome, hlk]
        exact this
  · intro hmiss
    rcases hmiss with hlk | ⟨e, hlk⟩
    · simp [awaitOutcome, hlk]
    · simp [awaitOutcome, hlk]

/-- Witness for C2: a turn with one `tool_use` message carrying three
calls — one resolved, one rejected, one with a missing promise — yields
one `tool_result` message with three entries, ids in order, the last two
synthesized as errors. -/
theorem c2_witness :
    (WfPending [("a", Except.ok ⟨"a", .text "4", false⟩),
                ("b", Except.error "boom")] ∧
      (((toolUseBatches
            [Msg.assistant ['h'],
             Msg.toolUse none
               [⟨"a", "sum", JsonV.obj []⟩, ⟨"b", "mul", JsonV.obj []⟩,
                ⟨"c", "div", JsonV.obj []⟩]]).map
          (List.map ToolCallReq.id)).flatten).Nodup) ∧
    ((buildResults
        [("a", Except.ok ⟨"a", .text "4", false⟩),
         ("b", Except.error "boom")]
        [Msg.assistant ['h'],
         Msg.toolUse none
           [⟨"a", "sum", JsonV.obj []⟩, ⟨"b", "mul", JsonV.obj []⟩,
            ⟨"c", "div", JsonV.obj []⟩]]).1).length =
      (toolUseBatches
        [Msg.assistant ['h'],
         Msg.toolUse none
           [⟨"a", "sum", JsonV.obj []⟩, ⟨"b", "mul", JsonV.obj []⟩,
            ⟨"c", "div", JsonV.obj []⟩]]).length := by
  have hwf : WfPending [("a", Except.ok ⟨"a", .text "4", false⟩),
      ("b", Except.error "boom")] := by
    intro p hp r hr
    simp only [List.mem_cons, List.not_mem_nil, or_false] at hp
    rcases hp with rfl | rfl
    · cases hr
      rfl
    · cases hr
  have hnd : (((toolUseBatches
        [Msg.assistant ['h'],
         Msg.toolUse none
           [⟨"a", "sum", JsonV.obj []⟩, ⟨"b", "mul", JsonV.obj []⟩,
            ⟨"c", "div", JsonV.obj []⟩]]).map
      (List.map ToolCallReq.id)).flatten).Nodup := by
    simp [toolUseBatches]
  exact ⟨⟨hwf, hnd⟩,
    (c2_tool_result_one_to_one _ _ hwf hnd).1⟩

theorem invokesPrecededByEndFlag_of_true (l : List TraceItem) :
    invokesPrecededByEndFlag true l = true := by
  induction l with
  | nil => rfl
  | cons it rest ih =>
    by_cases h1 : isEndChunk it
    · simp [invokesPrecededByEndFlag, h1, ih]
    · by_cases h2 : isInvoke it
      · simp [invokesPrecededByEndFlag, h1, h2, ih]
      · simp [invokesPrecededByEndFlag, h1, h2, ih]

theorem invokesPrecededByEndFlag_append (xs : List TraceItem) :
    ∀ (b : Bool) (ys : List TraceItem),
      invokesPrecededByEndFlag b (xs ++ ys) =
        (invokesPrecededByEndFlag b xs &&
          invokesPrecededByEndFlag (b || xs.any isEndChunk) ys) := by
  induction xs with
  | nil => intro b ys; simp [invokesPrecededByEndFlag]
  | cons it rest ih =>
    intro b ys
    by_cases h1 : isEndChunk it
    · simp [invokesPrecededByEndFlag, h1, ih, List.any_cons]
    · by_cases h2 : isInvoke it
      · simp [invokesPrecededByEndFlag, h1, h2, ih, List.any_cons,
          Bool.and_assoc]
      · simp [invokesPrecededByEndFlag, h1, h2, ih, List.any_cons]

theorem dispatchCalls_items (exec : ToolCallReq → Except String LLMToolResult)
    (calls : List ToolCallReq) :
    ∀ pending, ∀ it ∈ (dispatchCalls exec pending calls).2,
      ∃ id, it = TraceItem.invoke id := by
  induction calls with
  | nil => intro pending it hit; simp [dispatchCalls] at hit
  | cons call rest ih =>
    intro pending it hit
    by_cases h : hasA pending call.id
    · rw [dispatchCalls, if_pos h] at hit
      exact ih _ _ hit
    · rw [dispatchCalls, if_neg h] at hit
      rcases List.mem_cons.mp hit with h' | h'
      · exact ⟨call.id, h'⟩
      · exact ih _ _ h'

/-- With this accumulator, a `tool_use` message can only be completed by
the terminal `stream_end` chunk: no other chunk type ever returns one. -/
theorem addChunk_toolUse_only_stream_end
    (parse : List Char → Option JsonV) (s : AccSt) (c : Chunk)
    (ct : Option (List Char)) (calls : List ToolCallReq)
    (h : (addChunk parse s c).1 = some (.toolUse ct calls)) :
    c = .stream_end := by
  cases c with
  | stream_end => rfl
  | text_start => simp [addChunk, addChunkCore] at h
  | text_delta d =>
    by_cases hr : s.currentRole = some true <;>
      simp [addChunk, addChunkCore, hr] at h
  | text_end => simp [addChunk, addChunkCore] at h
  | thinking_start => simp [addChunk, addChunkCore] at h
  | thinking_delta d =>
    by_cases hr : s.currentRole = some false <;>
      simp [addChunk, addChunkCore, hr] at h
  | thinking_end =>
    by_cases hr : s.currentRole = some false <;>
      simp [addChunk, addChunkCore, hr] at h
  | tool_use_start id name =>
    by_cases h1 : s.currentRole = some true ∧ s.currentContent ≠ []
    · simp [addChunk, addChunkCore, h1] at h
    · by_cases h2 : s.currentRole = some false ∧ s.currentContent ≠ [] <;>
        simp [addChunk, addChunkCore, h1, h2] at h
  | tool_use_delta id d =>
    rcases hlk : lookupA s.currentToolCalls id with _ | entry <;>
      simp [addChunk, addChunkCore, hlk] at h
  | tool_use_end id =>
    rcases hlk : lookupA s.currentToolCalls id with _ | entry
    · simp [addChunk, addChunkCore, hlk] at h
    · rcases hp : parse (argsOrDefault entry.argsJson) with _ | v <;>
        simp [addChunk, addChunkCore, hlk, hp] at h
  | stream_start => simp [addChunk, addChunkCore] at h
  | error m => simp [addChunk, addChunkCore] at h

/-- Trace invariants of the stream-processing fold: every invocation
start is preceded by the processing of the terminal `stream_end` chunk,
and the stream-phase trace consists only of chunk and invoke items. -/
theorem invokesPrecededByEndFlag_of_no_invoke (l : List TraceItem)
    (h : ∀ it ∈ l, isInvoke it = false) :
    ∀ b, invokesPrecededByEndFlag b l = true := by
  induction l with
  | nil => intro b; rfl
  | cons it rest ih =>
    intro b
    have hit : isInvoke it = false := h it (List.mem_cons_self _ _)
    have hrest : ∀ x ∈ rest, isInvoke x = false :=
      fun x hx => h x (List.mem_cons_of_mem _ hx)
    by_cases h1 : isEndChunk it
    · simp [invokesPrecededByEndFlag, h1, ih hrest]
    · simp [invokesPrecededByEndFlag, h1, hit, ih hrest]

theorem streamPhase_trace_inv (parseJson : List Char → Option JsonV)
    (exec : ToolCallReq → Except String LLMToolResult)
    (chunks : List Chunk) :
    ∀ st0 : StreamPhase,
      invokesPrecededByEnd st0.trace = true →
      (∀ it ∈ st0.trace,
        (∃ c, it = TraceItem.chunk c) ∨ ∃ id, it = TraceItem.invoke id) →
      invokesPrecededByEnd
          (chunks.foldl (processChunk parseJson exec) st0).trace = true ∧
      (∀ it ∈ (chunks.foldl (processChunk parseJson exec) st0).trace,
        (∃ c, it = TraceItem.chunk c) ∨ ∃ id, it = TraceItem.invoke id) := by
  induction chunks with
  | nil => intro st0 h0 q0; exact ⟨h0, q0⟩
  | cons c rest ih =>
    intro st0 h0 q0
    refine ih (processChunk parseJson exec st0 c) ?_ ?_
    · have hstep : ∀ it ∈ (processChunk parseJson exec st0 c).trace,
          it ∈ st0.trace ++ [TraceItem.chunk c] ++
            (match (addChunk parseJson st0.acc c).1 with
             | some (.toolUse _ calls) =>
               dispatchCalls exec st0.pending calls
             | _ => (st0.pending, ([] : List TraceItem))).2 := by
        intro it hit
        simpa [processChunk] using hit
      have htr : (processChunk parseJson exec st0 c).trace =
          st0.trace ++ [TraceItem.chunk c] ++
            (match (addChunk parseJson st0.acc c).1 with
             | some (.toolUse _ calls) =>
               dispatchCalls exec st0.pending calls
             | _ => (st0.pending, ([] : List TraceItem))).2 := by
        simp [processChunk]
      simp only [invokesPrecededByEnd] at h0 ⊢
      rw [htr, List.append_assoc, invokesPrecededByEndFlag_append, h0,
        Bool.true_and, Bool.false_or]
      have hgeneric : ∀ f : Bool,
          invokesPrecededByEndFlag f [TraceItem.chunk c] = true := by
        intro f
        by_cases hend : isEndChunk (TraceItem.chunk c)
        · simp [invokesPrecededByEndFlag, hend]
        · simp [invokesPrecededByEndFlag, hend, isInvoke]
      rcases hmsg : (addChunk parseJson st0.acc c).1 with _ | msg
      · simp only [hmsg]
        simpa [invokesPrecededByEndFlag_append] using hgeneric _
      · cases msg with
        | toolUse ct calls =>
          have hc : c = .stream_end :=
            addChunk_toolUse_only_stream_end parseJson st0.acc c ct calls hmsg
          subst hc
          simp only [hmsg]
          have hend : isEndChunk (TraceItem.chunk Chunk.stream_end) = true := rfl
          simp [invokesPrecededByEndFlag, hend,
            invokesPrecededByEndFlag_of_true]
        | user a =>
          simp only [hmsg]
          simpa [invokesPrecededByEndFlag_append] using hgeneric _
        | assistant a =>
          simp only [hmsg]
          simpa [invokesPrecededByEndFlag_append] using hgeneric _
        | assistantThinking a =>
          simp only [hmsg]
          simpa [invokesPrecededByEndFlag_append] using hgeneric _
        | toolResult a =>
          simp only [hmsg]
          simpa [invokesPrecededByEndFlag_append] using hgeneric _
    · intro it hit
      simp only [processChunk] at hit
      rcases List.mem_append.mp hit with h' | h'
      · rcases List.mem_append.mp h' with h'' | h''
        · exact q0 it h''
        · exact Or.inl ⟨c, List.mem_singleton.mp h''⟩
      · rcases hmsg : (addChunk parseJson st0.acc c).1 with _ | msg
        · rw [hmsg] at h'
          simp at h'
        · cases msg with
          | toolUse ct calls =>
            rw [hmsg] at h'
            exact Or.inr (dispatchCalls_items exec calls st0.pending it h')
          | user a =>
            rw [hmsg] at h'
            simp at h'
          | assistant a =>
            rw [hmsg] at h'
            simp at h'
          | assistantThinking a =>
            rw [hmsg] at h'
            simp at h'
          | toolResult a =>
            rw [hmsg] at h'
            simp at h'

/-- **C8 counterexample.** For the clean tool-calling stream `c8chunks`,
the turn's trace contains a started invocation, yet that invocation
occurs AFTER the terminal `stream_end` chunk is processed (the
accumulator finalizes the `tool_use` message only at `stream_end`), so
`noInvokeAfterEnd` — the ordering the claim asserts — is violated. -/
theorem c8_counterexample :
    (runTurn demoParse demoExec c8chunks).map
        (fun t => (noInvokeAfterEnd t.trace, t.trace.any isInvoke)) =
      Except.ok (false, true) := by
  rfl

/-- **C8 (amended).** The orchestrator begins invoking each call of a
finalized `tool_use` message the instant the accumulator finalizes it —
within the processing of that same chunk, and before the await/assembly
phase — but with this accumulator the finalizing chunk is necessarily
the terminal `stream_end`, so dispatch begins while processing the
terminal end event, never before it: every `invoke` in the turn trace is
preceded by the processed `stream_end` chunk and precedes the await
phase. -/
theorem c8_dispatch_at_stream_end (parseJson : List Char → Option JsonV)
    (exec : ToolCallReq → Except String LLMToolResult)
    (chunks : List Chunk) (t : TurnResult)
    (h : runTurn parseJson exec chunks = Except.ok t) :
    invokesPrecededByEnd t.trace = true ∧
    ∃ pre post, t.trace = pre ++ TraceItem.awaitPhase :: post ∧
      (∀ it ∈ post, isInvoke it = false) ∧
      (∀ it ∈ pre, it ≠ TraceItem.awaitPhase) := by
  have hinv := streamPhase_trace_inv parseJson exec chunks streamInit rfl
    (by intro it hit; simp [streamInit] at hit)
  simp only [runTurn] at h
  split at h
  · cases h
  · split at h
    · cases h
    · rw [Except.ok.injEq] at h
      have ht : t.trace =
          (chunks.foldl (processChunk parseJson exec) streamInit).trace ++
            TraceItem.awaitPhase ::
              ((buildResults
                  (chunks.foldl (processChunk parseJson exec)
                    streamInit).pending
                  (chunks.foldl (processChunk parseJson exec)
                    streamInit).acc.allCompletedMessages).1.map
                TraceItem.yieldResult) := by
        rw [← h]
        simp
      constructor
      · simp only [invokesPrecededByEnd] at hinv ⊢
        rw [ht, invokesPrecededByEndFlag_append, hinv.1, Bool.true_and,
          Bool.false_or]
        refine invokesPrecededByEndFlag_of_no_invoke _ ?_ _
        intro it hit
        rcases List.mem_cons.mp hit with rfl | hit'
        · rfl
        · rcases List.mem_map.mp hit' with ⟨m, _, rfl⟩
          rfl
      · refine ⟨(chunks.foldl (processChunk parseJson exec) streamInit).trace,
          _, ht, ?_, ?_⟩
        · intro it hit
          rcases List.mem_map.mp hit with ⟨m, _, rfl⟩
          rfl
        · intro it hit
          rcases hinv.2 it hit with ⟨c, rfl⟩ | ⟨id, rfl⟩ <;> simp

/-- Witness for the amended C8 at the concrete stream `c8chunks`. -/
theorem c8_witness :
    runTurn demoParse demoExec c8chunks = Except.ok c8turn ∧
    (invokesPrecededByEnd c8turn.trace = true ∧
      ∃ pre post, c8turn.trace = pre ++ TraceItem.awaitPhase :: post ∧
        (∀ it ∈ post, isInvoke it = false) ∧
        (∀ it ∈ pre, it ≠ TraceItem.awaitPhase)) :=
  ⟨rfl, c8_dispatch_at_stream_end demoParse demoExec c8chunks c8turn rfl⟩

/-- A chunk that is not `tool_use_start` cannot create tool-call state or
complete a `tool_use` message when none has accumulated. -/
theorem addChunk_no_toolStart_step (parse : List Char → Option JsonV)
    (s : AccSt) (c : Chunk)
    (hc : ∀ id name, c ≠ Chunk.tool_use_start id name)
    (h1 : s.currentToolCalls = []) (h2 : s.completedToolCalls = []) :
    (addChunk parse s c).2.currentToolCalls = [] ∧
    (addChunk parse s c).2.completedToolCalls = [] ∧
    ∀ ct calls, (addChunk parse s c).1 ≠ some (Msg.toolUse ct calls) := by
  cases c with
  | stream_start => simp [addChunk, addChunkCore, resetState]
  | stream_end =>
    by_cases hA : s.currentRole = some true ∧ s.currentContent ≠ []
    · simp [addChunk, addChunkCore, resetState, h2, hA]
    · by_cases hB : s.currentRole = some false ∧ s.currentContent ≠ [] <;>
        simp [addChunk, addChunkCore, resetState, h2, hA, hB]
  | text_start => simp [addChunk, addChunkCore, h1, h2]
  | text_delta d =>
    by_cases hr : s.currentRole = some true <;>
      simp [addChunk, addChunkCore, resetState, hr, h1, h2]
  | text_end => simp [addChunk, addChunkCore, h1, h2]
  | thinking_start => simp [addChunk, addChunkCore, h1, h2]
  | thinking_delta d =>
    by_cases hr : s.currentRole = some false <;>
      simp [addChunk, addChunkCore, resetState, hr, h1, h2]
  | thinking_end =>
    by_cases hr : s.currentRole = some false <;>
      simp [addChunk, addChunkCore, resetState, hr, h1, h2]
  | tool_use_start id name => exact absurd rfl (hc id name)
  | tool_use_delta id d =>
    simp [addChunk, addChunkCore, lookupA, h1, h2]
  | tool_use_end id =>
    simp [addChunk, addChunkCore, lookupA, h1, h2]
  | error m => simp [addChunk, addChunkCore, resetState]

/-- `addChunkCore` never touches `allCompletedMessages`. -/
theorem addChunkCore_allCompleted (parse : List Char → Option JsonV)
    (s : AccSt) (c : Chunk) :
    ((addChunkCore parse s c).2).allCompletedMessages =
      s.allCompletedMessages := by
  cases c with
  | stream_start => simp [addChunkCore, resetState]
  | stream_end =>
    rcases hcc : s.completedToolCalls with _ | ⟨x, xs⟩
    · by_cases hA : s.currentRole = some true ∧ s.currentContent ≠ []
      · simp [addChunkCore, resetState, hcc, hA]
      · by_cases hB : s.currentRole = some false ∧ s.currentContent ≠ [] <;>
          simp [addChunkCore, resetState, hcc, hA, hB]
    · simp [addChunkCore, resetState, hcc]
  | text_start => simp [addChunkCore]
  | text_delta d =>
    by_cases hr : s.currentRole = some true <;>
      simp [addChunkCore, resetState, hr]
  | text_end => simp [addChunkCore]
  | thinking_start => simp [addChunkCore]
  | thinking_delta d =>
    by_cases hr : s.currentRole = some false <;>
      simp [addChunkCore, resetState, hr]
  | thinking_end =>
    by_cases hr : s.currentRole = some false <;>
      simp [addChunkCore, resetState, hr]
  | tool_use_start id name =>
    by_cases hA : s.currentRole = some true ∧ s.currentContent ≠ []
    · simp [addChunkCore, resetState, hA]
    · by_cases hB : s.currentRole = some false ∧ s.currentContent ≠ [] <;>
        simp [addChunkCore, resetState, hA, hB]
  | tool_use_delta id d =>
    rcases hlk : lookupA s.currentToolCalls id with _ | entry <;>
      simp [addChunkCore, hlk]
  | tool_use_end id =>
    rcases hlk : lookupA s.currentToolCalls id with _ | entry
    · simp [addChunkCore, hlk]
    · rcases hp : parse (argsOrDefault entry.argsJson) with _ | v <;>
        simp [addChunkCore, hlk, hp]
  | error m => simp [addChunkCore, resetState]

/-- `addChunk` only ever appends its own returned message to
`allCompletedMessages`. -/
theorem addChunk_allCompleted (parse : List Char → Option JsonV)
    (s : AccSt) (c : Chunk) :
    (addChunk parse s c).2.allCompletedMessages =
      s.allCompletedMessages ++ ((addChunk parse s c).1).toList := by
  have hcore := addChunkCore_allCompleted parse s c
  rcases h : addChunkCore parse s c with ⟨om, s'⟩
  rw [h] at hcore
  rcases om with _ | m
  · simp only [addChunk, h]
    simpa using hcore
  · simp only [addChunk, h]
    simpa using hcore

/-- Stream-phase fold for a turn whose chunk stream contains no
`tool_use_start` and no `error` chunk: no invocation ever starts, the
trace is just the processed chunks, the accumulator never completes a
`tool_use` message, and the terminal flag is set iff a `stream_end` was
seen. -/
theorem streamPhase_no_toolStart (parseJson : List Char → Option JsonV)
    (exec : ToolCallReq → Except String LLMToolResult)
    (cs : List Chunk)
    (hcs : ∀ id name, Chunk.tool_use_start id name ∉ cs)
    (herr : ∀ m, Chunk.error m ∉ cs) :
    ∀ st : StreamPhase,
      st.acc.currentToolCalls = [] → st.acc.completedToolCalls = [] →
      (∀ m ∈ st.acc.allCompletedMessages,
        ∀ ct calls, m ≠ Msg.toolUse ct calls) →
      (cs.foldl (processChunk parseJson exec) st).pending = st.pending ∧
      (cs.foldl (processChunk parseJson exec) st).trace =
        st.trace ++ cs.map TraceItem.chunk ∧
      (∀ m ∈ (cs.foldl (processChunk parseJson exec) st).acc.allCompletedMessages,
        ∀ ct calls, m ≠ Msg.toolUse ct calls) ∧
      (cs.foldl (processChunk parseJson exec) st).acc.currentToolCalls = [] ∧
      (cs.foldl (processChunk parseJson exec) st).acc.completedToolCalls = [] ∧
      (cs.foldl (processChunk parseJson exec) st).llmError = st.llmError ∧
      ((st.streamEnded = true ∨ Chunk.stream_end ∈ cs) →
        (cs.foldl (processChunk parseJson exec) st).streamEnded = true) := by
  induction cs with
  | nil =>
    intro st ha hb hm
    exact ⟨rfl, by simp, hm, ha, hb, rfl, by rintro (h | h); exact h; simp at h⟩
  | cons c rest ih =>
    intro st ha hb hm
    have hc : ∀ id name, c ≠ Chunk.tool_use_start id name := by
      intro id name hcc
      exact hcs id name (hcc ▸ List.mem_cons_self _ _)
    have hce : ∀ m, c ≠ Chunk.error m := by
      intro m hcc
      exact herr m (hcc ▸ List.mem_cons_self _ _)
    have hrest : ∀ id name, Chunk.tool_use_start id name ∉ rest :=
      fun id name h => hcs id name (List.mem_cons_of_mem _ h)
    have hreste : ∀ m, Chunk.error m ∉ rest :=
      fun m h => herr m (List.mem_cons_of_mem _ h)
    have hstep := addChunk_no_toolStart_step parseJson st.acc c hc ha hb
    have hnomsg : ∀ ct calls,
        (addChunk parseJson st.acc c).1 ≠ some (Msg.toolUse ct calls) :=
      hstep.2.2
    have hacc : (processChunk parseJson exec st c).acc =
        (addChunk parseJson st.acc c).2 := rfl
    -- the dispatch step is empty because no tool_use message completes
    have hdispatch : (processChunk parseJson exec st c).pending = st.pending ∧
        (processChunk parseJson exec st c).trace =
          st.trace ++ [TraceItem.chunk c] := by
      rcases hmsg : (addChunk parseJson st.acc c).1 with _ | msg
      · constructor <;> simp [processChunk, hmsg]
      · cases msg with
        | toolUse ct calls => exact absurd hmsg (by simpa using hnomsg ct calls)
        | user a => constructor <;> simp [processChunk, hmsg]
        | assistant a => constructor <;> simp [processChunk, hmsg]
        | assistantThinking a => constructor <;> simp [processChunk, hmsg]
        | toolResult a => constructor <;> simp [processChunk, hmsg]
    have hpend : (processChunk parseJson exec st c).pending = st.pending :=
      hdispatch.1
    have htrace : (processChunk parseJson exec st c).trace =
        st.trace ++ [TraceItem.chunk c] := hdispatch.2
    have herr2 : (processChunk parseJson exec st c).llmError = st.llmError := by
      cases c
      all_goals simp [processChunk]
      all_goals exact absurd rfl (hce _)
    have hmsgs : ∀ m ∈ (addChunk parseJson st.acc c).2.allCompletedMessages,
        ∀ ct calls, m ≠ Msg.toolUse ct calls := by
      intro m hmem ct calls
      rw [addChunk_allCompleted] at hmem
      rcases List.mem_append.mp hmem with h' | h'
      · exact hm m h' ct calls
      · intro hmm
        rcases hres : (addChunk parseJson st.acc c).1 with _ | msg
        · rw [hres] at h'
          simp at h'
        · rw [hres] at h'
          have hm2 : m = msg := by simpa using h'
          apply hnomsg ct calls
          rw [hres, ← hm2, hmm]
    have hrec := ih hrest hreste (processChunk parseJson exec st c)
      (by rw [hacc]; exact hstep.1)
      (by rw [hacc]; exact hstep.2.1)
      (by rw [hacc]; exact hmsgs)
    refine ⟨?_, ?_, hrec.2.2.1, hrec.2.2.2.1, hrec.2.2.2.2.1, ?_, ?_⟩
    · rw [List.foldl_cons, hrec.1, hpend]
    · rw [List.foldl_cons, hrec.2.1, htrace]
      simp
    · rw [List.foldl_cons, hrec.2.2.2.2.2.1, herr2]
    · rintro (hse | hse)
      · refine hrec.2.2.2.2.2.2 (Or.inl ?_)
        simp only [processChunk]
        simp [hse]
      · rcases List.mem_cons.mp hse with rfl | hse'
        · refine hrec.2.2.2.2.2.2 (Or.inl ?_)
          simp only [processChunk]
          simp
        · exact hrec.2.2.2.2.2.2 (Or.inr hse')

theorem buildResults_no_toolUse (msgs : List Msg) :
    ∀ pending, (∀ m ∈ msgs, ∀ ct calls, m ≠ Msg.toolUse ct calls) →
      buildResults pending msgs = ([], pending) := by
  induction msgs with
  | nil => intro pending _; rfl
  | cons m rest ih =>
    intro pending h
    have hrest : ∀ m ∈ rest, ∀ ct calls, m ≠ Msg.toolUse ct calls :=
      fun x hx => h x (List.mem_cons_of_mem _ hx)
    cases m with
    | toolUse ct calls =>
      exact absurd rfl (h _ (List.mem_cons_self _ _) ct calls)
    | user a => simpa [buildResults] using ih pending hrest
    | assistant a => simpa [buildResults] using ih pending hrest
    | assistantThinking a => simpa [buildResults] using ih pending hrest
    | toolResult a => simpa [buildResults] using ih pending hrest

/-- A turn over a clean stream (no tool spans, no error chunk, with a
terminal `stream_end`) succeeds, yields no `tool_result` message, starts
no tools, and its trace is exactly the processed chunks followed by the
(empty) assembly phase. -/
theorem runTurn_clean (parseJson : List Char → Option JsonV)
    (exec : ToolCallReq → Except String LLMToolResult)
    (chunks : List Chunk)
    (hstart : ∀ id name, Chunk.tool_use_start id name ∉ chunks)
    (herrs : ∀ m, Chunk.error m ∉ chunks)
    (hend : Chunk.stream_end ∈ chunks) :
    runTurn parseJson exec chunks = Except.ok
      { trace := chunks.map TraceItem.chunk ++ [TraceItem.awaitPhase]
      , accMessages :=
          (chunks.foldl (processChunk parseJson exec)
            streamInit).acc.allCompletedMessages
      , resultMessages := []
      , processedAnyTools := false } := by
  have hfold := streamPhase_no_toolStart parseJson exec chunks hstart herrs
    streamInit rfl rfl (by intro m hm; simp [streamInit, AccSt.init] at hm)
  have hllm : (chunks.foldl (processChunk parseJson exec)
      streamInit).llmError = none := hfold.2.2.2.2.2.1
  have hse : (chunks.foldl (processChunk parseJson exec)
      streamInit).streamEnded = true :=
    hfold.2.2.2.2.2.2 (Or.inr hend)
  have hpend : (chunks.foldl (processChunk parseJson exec)
      streamInit).pending = [] := hfold.1
  have htrace : (chunks.foldl (processChunk parseJson exec)
      streamInit).trace = chunks.map TraceItem.chunk := by
    have := hfold.2.1
    simpa [streamInit] using this
  have hnomsgs := hfold.2.2.1
  have hbuild : buildResults
      (chunks.foldl (processChunk parseJson exec) streamInit).pending
      (chunks.foldl (processChunk parseJson exec)
        streamInit).acc.allCompletedMessages =
      ([], (chunks.foldl (processChunk parseJson exec) streamInit).pending) := by
    exact buildResults_no_toolUse _ _ hnomsgs
  have hany : ((chunks.foldl (processChunk parseJson exec)
      streamInit).acc.allCompletedMessages).any isToolUseWithCalls = false := by
    rw [List.any_eq_false]
    intro m hm
    cases m with
    | toolUse ct calls =>
      cases calls with
      | nil => simp [isToolUseWithCalls]
      | cons x xs => exact absurd rfl (hnomsgs _ hm ct (x :: xs))
    | user a => simp [isToolUseWithCalls]
    | assistant a => simp [isToolUseWithCalls]
    | assistantThinking a => simp [isToolUseWithCalls]
    | toolResult a => simp [isToolUseWithCalls]
  simp only [runTurn, hllm, hse, hbuild, Bool.not_true, Bool.false_eq_true,
    if_false, List.map_nil, Except.ok.injEq, TurnResult.mk.injEq]
  refine ⟨?_, trivial, trivial, hany⟩
  rw [htrace]
  simp

/-- Every normal (non-error, non-fuel-exhaustion) completion of the turn
loop ends with a turn that started no tool invocations: the no-tools
branch is the only `return` in `Agent.run`'s loop. -/
theorem runAgent_normal_end (parseJson : List Char → Option JsonV)
    (exec : ToolCallReq → Except String LLMToolResult)
    (llm : List Msg → List Chunk) :
    ∀ (fuel : Nat) (hist : List Msg) (outs : List RunOut)
      (finalHist : List Msg),
      runAgent parseJson exec llm fuel hist =
        some (Except.ok outs, finalHist) →
      ∃ hist' t', runTurn parseJson exec (llm hist') = Except.ok t' ∧
        t'.processedAnyTools = false := by
  intro fuel
  induction fuel with
  | zero =>
    intro hist outs fh h
    simp [runAgent] at h
  | succ n ih =>
    intro hist outs fh h
    simp only [runAgent] at h
    split at h
    · simp at h
    · rename_i t heq
      split at h
      · split at h
        · simp at h
        · simp at h
        · rename_i outs2 h2 hin
          exact ih _ _ _ hin
      · rename_i hp
        exact ⟨hist, t, heq, by simpa using hp⟩

/-- **C7.** A `run` invocation whose model stream contains no tool-call
spans (and ends cleanly) yields exactly its stream events and terminates
after that single turn — for every fuel bound ≥ 1, showing genuine
termination — without ever starting a tool invocation; and a turn that
started no tool invocations is the only normal termination path of
`run`. -/
theorem c7_no_tools_single_turn (parseJson : List Char → Option JsonV)
    (exec : ToolCallReq → Except String LLMToolResult)
    (llm : List Msg → List Chunk) (fuel : Nat) (history : List Msg)
    (newMessage : Msg)
    (hstart : ∀ id name,
      Chunk.tool_use_start id name ∉ llm (history ++ [newMessage]))
    (herrs : ∀ m, Chunk.error m ∉ llm (history ++ [newMessage]))
    (hend : Chunk.stream_end ∈ llm (history ++ [newMessage]))
    (hfuel : 1 ≤ fuel) :
    (∃ t, runTurn parseJson exec (llm (history ++ [newMessage])) =
        Except.ok t ∧
      (∀ id, TraceItem.invoke id ∉ t.trace) ∧
      t.resultMessages = [] ∧
      t.processedAnyTools = false ∧
      run parseJson exec llm fuel history newMessage =
        some (Except.ok
            ((llm (history ++ [newMessage])).map RunOut.chunk),
          (history ++ [newMessage]) ++ t.accMessages)) ∧
    (∀ (fuel' : Nat) (hist : List Msg) (outs : List RunOut)
        (finalHist : List Msg),
      runAgent parseJson exec llm fuel' hist =
        some (Except.ok outs, finalHist) →
      ∃ hist' t', runTurn parseJson exec (llm hist') = Except.ok t' ∧
        t'.processedAnyTools = false) := by
  have hturn := runTurn_clean parseJson exec (llm (history ++ [newMessage]))
    hstart herrs hend
  constructor
  · refine ⟨_, hturn, ?_, rfl, rfl, ?_⟩
    · intro id hmem
      rcases List.mem_append.mp hmem with h' | h'
      · rcases List.mem_map.mp h' with ⟨c, _, hcc⟩
        simp at hcc
      · simp at h'
    · obtain ⟨n, rfl⟩ : ∃ n, fuel = n + 1 := by
        rcases fuel with _ | n
        · omega
        · exact ⟨n, rfl⟩
      simp only [run, runAgent]
      rw [hturn]
      simp
  · intro fuel' hist outs finalHist h
    exact runAgent_normal_end parseJson exec llm fuel' hist outs finalHist h

/-- Witness for C7: a tool-less stream answering `"4"`, fuel 1. -/
theorem c7_witness :
    ((∀ id name, Chunk.tool_use_start id name ∉
        [Chunk.stream_start, Chunk.text_start, Chunk.text_delta ['4'],
         Chunk.text_end, Chunk.stream_end]) ∧
      (∀ m, Chunk.error m ∉
        [Chunk.stream_start, Chunk.text_start, Chunk.text_delta ['4'],
         Chunk.text_end, Chunk.stream_end]) ∧
      Chunk.stream_end ∈
        [Chunk.stream_start, Chunk.text_start, Chunk.text_delta ['4'],
         Chunk.text_end, Chunk.stream_end] ∧
      1 ≤ 1) ∧
    ((∃ t, runTurn demoParse demoExec
          [Chunk.stream_start, Chunk.text_start, Chunk.text_delta ['4'],
           Chunk.text_end, Chunk.stream_end] = Except.ok t ∧
        (∀ id, TraceItem.invoke id ∉ t.trace) ∧
        t.resultMessages = [] ∧
        t.processedAnyTools = false ∧
        run demoParse demoExec
            (fun _ =>
              [Chunk.stream_start, Chunk.text_start, Chunk.text_delta ['4'],
               Chunk.text_end, Chunk.stream_end]) 1 []
            (Msg.user ['2', '+', '2', '?']) =
          some (Except.ok
              (([Chunk.stream_start, Chunk.text_start, Chunk.text_delta ['4'],
                 Chunk.text_end, Chunk.stream_end]).map RunOut.chunk),
            ([] ++ [Msg.user ['2', '+', '2', '?']]) ++ t.accMessages)) ∧
      (∀ (fuel' : Nat) (hist : List Msg) (outs : List RunOut)
          (finalHist : List Msg),
        runAgent demoParse demoExec
            (fun _ =>
              [Chunk.stream_start, Chunk.text_start, Chunk.text_delta ['4'],
               Chunk.text_end, Chunk.stream_end]) fuel' hist =
          some (Except.ok outs, finalHist) →
        ∃ hist' t', runTurn demoParse demoExec
            ((fun (_ : List Msg) =>
              [Chunk.stream_start, Chunk.text_start, Chunk.text_delta ['4'],
               Chunk.text_end, Chunk.stream_end]) hist') = Except.ok t' ∧
          t'.processedAnyTools = false)) := by
  refine ⟨⟨?_, ?_, ?_, ?_⟩, ?_⟩
  · intro id name
    simp
  · intro m
    simp
  · simp
  · exact Nat.le_refl 1
  · exact c7_no_tools_single_turn demoParse demoExec
      (fun _ =>
        [Chunk.stream_start, Chunk.text_start, Chunk.text_delta ['4'],
         Chunk.text_end, Chunk.stream_end]) 1 []
      (Msg.user ['2', '+', '2', '?'])
      (by intro id name; simp) (by intro m; simp) (by simp) (Nat.le_refl 1)

theorem indexOfSub_sound (pat : List Char) :
    ∀ (l : List Char) (i : Nat), indexOfSub pat l = some i →
      pat <+: l.drop i ∧ i ≤ l.length := by
  intro l
  induction l with
  | nil => intro i h; simp [indexOfSub] at h
  | cons c rest ih =>
    intro i h
    rw [indexOfSub] at h
    by_cases hp : pat.isPrefixOf (c :: rest)
    · rw [if_pos hp] at h
      cases h
      exact ⟨List.isPrefixOf_iff_prefix.mp hp, Nat.zero_le _⟩
    · rw [if_neg hp] at h
      rcases hrec : indexOfSub pat rest with _ | j
      · rw [hrec] at h
        simp at h
      · rw [hrec] at h
        simp only [Option.map_some', Option.some.injEq] at h
        subst h
        obtain ⟨h1, h2⟩ := ih j hrec
        exact ⟨by simpa using h1, by simpa using Nat.succ_le_succ h2⟩

theorem indexOfChar_sound (ch : Char) :
    ∀ (l : List Char) (j : Nat), indexOfChar ch l = some j →
      [ch] <+: l.drop j ∧ j ≤ l.length := by
  intro l
  induction l with
  | nil => intro j h; simp [indexOfChar] at h
  | cons c rest ih =>
    intro j h
    rw [indexOfChar] at h
    by_cases hc : c = ch
    · rw [if_pos hc] at h
      cases h
      exact ⟨⟨rest, by simp [hc]⟩, Nat.zero_le _⟩
    · rw [if_neg hc] at h
      rcases hrec : indexOfChar ch rest with _ | j'
      · rw [hrec] at h
        simp at h
      · rw [hrec] at h
        simp only [Option.map_some', Option.some.injEq] at h
        subst h
        obtain ⟨h1, h2⟩ := ih j' hrec
        exact ⟨by simpa using h1, by simpa using Nat.succ_le_succ h2⟩

/-- If `pat` occurs at position `i` of `l`, then taking through the end
of the occurrence splits as the front plus `pat`. -/
theorem take_of_prefix_drop (l pat : List Char) (i : Nat)
    (hi : i ≤ l.length) (h : pat <+: l.drop i) :
    l.take (i + pat.length) = l.take i ++ pat := by
  obtain ⟨t, ht⟩ := h
  conv_lhs => rw [← List.take_append_drop i l, ← ht]
  rw [List.take_append_eq_append_take]
  have hlen : (l.take i).length = i := by
    rw [List.length_take]
    omega
  rw [List.take_of_length_le (by omega), hlen]
  have : i + pat.length - i = pat.length := by omega
  rw [this, List.take_left]

theorem renderChunks_append (a c : List Chunk) :
    renderChunks (a ++ c) = renderChunks a ++ renderChunks c := by
  simp [renderChunks]

/-- One `parseNextInBuffer` step is loss-less: rendering the yielded
chunks (delta payloads plus the recognized marker strings) and appending
the remaining buffer recovers the pre-step buffer. -/
theorem parseNext_render (isFinal : Bool) (s : SegSt) :
    renderChunks (parseNext isFinal s).1 ++ (parseNext isFinal s).2.buffer =
      s.buffer := by
  rcases s with ⟨mode, b⟩
  by_cases hb : b.isEmpty
  · simp [parseNext, hb, renderChunks]
  · cases mode with
    | text => simp [parseNext, hb, renderChunks, renderChunk]
    | idle =>
      rcases hfind : indexOfSub tagOpen b with _ | i
      · rcases hlt : indexOfChar '<' b with _ | j
        · simp [parseNext, hb, hfind, hlt, renderChunks, renderChunk]
        · obtain ⟨hpre, hle⟩ := indexOfChar_sound '<' b j hlt
          rcases j with _ | j'
          · obtain ⟨t, ht⟩ := hpre
            simp only [List.drop_zero] at ht
            cases hC : !isFinal && decide (b.length < tagOpen.length) with
            | true => simp [parseNext, hb, hfind, hlt, hC, renderChunks]
            | false =>
              simp [parseNext, hb, hfind, hlt, hC, renderChunks, renderChunk]
              rw [← ht]
              simp
          · cases hC :
              !isFinal && decide (b.length < j' + 1 + tagOpen.length) with
            | true =>
              simp [parseNext, hb, hfind, hlt, hC, renderChunks, renderChunk]
            | false =>
              simp [parseNext, hb, hfind, hlt, hC, renderChunks, renderChunk]
      · obtain ⟨hpre, hle⟩ := indexOfSub_sound tagOpen b i hfind
        rcases i with _ | i'
        · obtain ⟨t, ht⟩ := hpre
          simp only [List.drop_zero] at ht
          simp [parseNext, hb, hfind, renderChunks, renderChunk]
          rw [← ht]
          simp [List.drop_left]
        · have htake := take_of_prefix_drop b tagOpen (i' + 1) hle hpre
          simp [parseNext, hb, hfind, renderChunks, renderChunk]
          conv_rhs => rw [← List.take_append_drop (i' + 1 + tagOpen.length) b]
          rw [htake]
          simp
    | thinking =>
      rcases hfind : indexOfSub tagClose b with _ | e
      · rcases hlt : indexOfChar '<' b with _ | j
        · simp [parseNext, hb, hfind, hlt, renderChunks, renderChunk]
        · obtain ⟨hpre, hle⟩ := indexOfChar_sound '<' b j hlt
          have htake : b.take (j + 1) = b.take j ++ ['<'] := by
            simpa using take_of_prefix_drop b ['<'] j hle hpre
          rcases j with _ | j'
          · have htake0 : b.take 1 = ['<'] := by simpa using htake
            by_cases hsw : (['<', '/'] : List Char) <+: b
            · cases hC : !isFinal && decide (b.length < tagClose.length) with
              | true =>
                simp [parseNext, hb, hfind, hlt, hsw, hC, renderChunks,
                  renderChunk]
              | false =>
                simp [parseNext, hb, hfind, hlt, hsw, hC, renderChunks,
                  renderChunk]
                conv_rhs => rw [← List.take_append_drop 1 b]
                rw [htake0]
                simp
            · simp [parseNext, hb, hfind, hlt, hsw, renderChunks, renderChunk]
              conv_rhs => rw [← List.take_append_drop 1 b]
              rw [htake0]
              simp
          · by_cases hsw : (['<', '/'] : List Char) <+: b.drop (j' + 1)
            · cases hC :
                !isFinal && decide (b.length < j' + 1 + tagClose.length) with
              | true =>
                simp [parseNext, hb, hfind, hlt, hsw, hC, renderChunks,
                  renderChunk]
              | false =>
                simp [parseNext, hb, hfind, hlt, hsw, hC, renderChunks,
                  renderChunk]
            · simp [parseNext, hb, hfind, hlt, hsw, renderChunks, renderChunk]
              conv_rhs => rw [← List.take_append_drop (j' + 1 + 1) b]
              rw [htake]
              simp
      · obtain ⟨hpre, hle⟩ := indexOfSub_sound tagClose b e hfind
        rcases e with _ | e'
        · obtain ⟨t, ht⟩ := hpre
          simp only [List.drop_zero] at ht
          simp [parseNext, hb, hfind, renderChunks, renderChunk]
          rw [← ht]
          simp [List.drop_left]
        · have htake := take_of_prefix_drop b tagClose (e' + 1) hle hpre
          simp [parseNext, hb, hfind, renderChunks, renderChunk]
          conv_rhs => rw [← List.take_append_drop (e' + 1 + tagClose.length) b]
          rw [htake]
          simp

/-- On a forced flush (`isFinalChunk = true`) every step over a
non-empty buffer consumes at least one character. -/
theorem parseNext_progress (s : SegSt) (hne : s.buffer.isEmpty = false) :
    (parseNext true s).2.buffer.length < s.buffer.length := by
  rcases s with ⟨mode, b⟩
  simp only at hne
  have hpos : 0 < b.length := by
    cases b
    · simp at hne
    · simp
  have hb : ¬b.isEmpty = true := by simp [hne]
  cases mode with
  | text =>
    simp [parseNext, hb]
    exact hpos
  | idle =>
    rcases hfind : indexOfSub tagOpen b with _ | i
    · rcases hlt : indexOfChar '<' b with _ | j
      · simp [parseNext, hb, hfind, hlt]
        exact hpos
      · rcases j with _ | j'
        · simp [parseNext, hb, hfind, hlt, List.length_drop]
          omega
        · simp [parseNext, hb, hfind, hlt, List.length_drop]
          omega
    · rcases i with _ | i'
      · simp [parseNext, hb, hfind, List.length_drop,
          show tagOpen.length = 10 from rfl]
        omega
      · simp [parseNext, hb, hfind, List.length_drop,
          show tagOpen.length = 10 from rfl]
        omega
  | thinking =>
    rcases hfind : indexOfSub tagClose b with _ | e
    · rcases hlt : indexOfChar '<' b with _ | j
      · simp [parseNext, hb, hfind, hlt]
        exact hpos
      · rcases j with _ | j'
        · by_cases hsw : (['<', '/'] : List Char) <+: b
          · simp [parseNext, hb, hfind, hlt, hsw, List.length_drop]
            omega
          · simp [parseNext, hb, hfind, hlt, hsw, List.length_drop]
            omega
        · by_cases hsw : (['<', '/'] : List Char) <+: b.drop (j' + 1)
          · simp [parseNext, hb, hfind, hlt, hsw, List.length_drop]
            omega
          · simp [parseNext, hb, hfind, hlt, hsw, List.length_drop]
            omega
    · rcases e with _ | e'
      · simp [parseNext, hb, hfind, List.length_drop,
          show tagClose.length = 11 from rfl]
        omega
      · simp [parseNext, hb, hfind, List.length_drop,
          show tagClose.length = 11 from rfl]
        omega

theorem feedLoop_render (fuel : Nat) :
    ∀ s : SegSt,
      renderChunks (feedLoop fuel s).1 ++ (feedLoop fuel s).2.buffer =
        s.buffer := by
  induction fuel with
  | zero => intro s; simp [feedLoop, renderChunks]
  | succ n ih =>
    intro s
    by_cases hb : s.buffer.isEmpty
    · simp [feedLoop, hb, renderChunks]
    · by_cases hlt :
        (parseNext false s).2.buffer.length < s.buffer.length
      · have h2 := ih (parseNext false s).2
        simp only [feedLoop, hb, hlt, if_true, if_false,
          Bool.false_eq_true, if_neg]
        rw [renderChunks_append, List.append_assoc, h2]
        exact parseNext_render false s
      · simp only [feedLoop]
        rw [if_neg (by simpa using hb), if_neg hlt]
        exact parseNext_render false s

theorem flushLoop_spec (fuel : Nat) :
    ∀ s : SegSt, s.buffer.length ≤ fuel →
      renderChunks (flushLoop fuel s).1 = s.buffer ∧
      (flushLoop fuel s).2.buffer = [] := by
  induction fuel with
  | zero =>
    intro s hle
    have hnil : s.buffer = [] := by
      cases hbuf : s.buffer
      · rfl
      · rw [hbuf] at hle; simp at hle
    simp [flushLoop, renderChunks, hnil]
  | succ n ih =>
    intro s hle
    by_cases hb : s.buffer.isEmpty
    · have hnil : s.buffer = [] := by
        cases hbuf : s.buffer
        · rfl
        · rw [hbuf] at hb; simp at hb
      simp [flushLoop, hb, renderChunks, hnil]
    · have hprog := parseNext_progress s (by simpa using hb)
      have hrec := ih (parseNext true s).2 (by omega)
      simp only [flushLoop]
      rw [if_neg (by simpa using hb), if_pos hprog]
      constructor
      · rw [renderChunks_append, hrec.1]
        exact parseNext_render true s
      · exact hrec.2

theorem feedFragment_render (s : SegSt) (f : List Char) :
    renderChunks (feedFragment s f).1 ++ (feedFragment s f).2.buffer =
      s.buffer ++ f := by
  simpa [feedFragment] using
    feedLoop_render ((s.buffer ++ f).length + 1) ⟨s.mode, s.buffer ++ f⟩

theorem feedAll_render (frags : List (List Char)) :
    ∀ s : SegSt,
      renderChunks (feedAll s frags).1 ++ (feedAll s frags).2.buffer =
        s.buffer ++ frags.flatten := by
  induction frags with
  | nil => intro s; simp [feedAll, renderChunks]
  | cons f fs ih =>
    intro s
    simp only [feedAll]
    rw [renderChunks_append, List.append_assoc, ih (feedFragment s f).2,
      ← List.append_assoc, feedFragment_render s f, List.flatten_cons,
      List.append_assoc]

theorem deltaText_append (a c : List Chunk) :
    deltaText (a ++ c) = deltaText a ++ deltaText c := by
  simp [deltaText]

/-- **C1.** The segmenter is loss-less for every input and every
fragmentation, including splits inside a marker string: rendering the
emitted events — concatenating all `text_delta`/`thinking_delta`
payloads with the `<thinking>` / `</thinking>` marker strings re-inserted
at each recognized span boundary — reproduces the original input
verbatim; equivalently, the concatenation of the delta payloads is
exactly the input with the recognized marker strings removed. The
trailing `yieldCurrentStateEnd` events carry no payload, so the full
emitted stream has the same delta concatenation. -/
theorem c1_segmenter_lossless (frags : List (List Char)) :
    renderChunks (segmentCore frags).1 = frags.flatten ∧
    deltaText (segmentChunks frags) = deltaText (segmentCore frags).1 := by
  constructor
  · have h1 := feedAll_render frags ⟨.idle, []⟩
    have h2 := flushLoop_spec
      ((feedAll ⟨PMode.idle, []⟩ frags).2.buffer.length + 1)
      (feedAll ⟨PMode.idle, []⟩ frags).2 (by omega)
    simp only [segmentCore]
    rw [renderChunks_append, h2.1]
    simpa using h1
  · simp only [segmentChunks]
    rw [deltaText_append]
    have hend : deltaText
        (yieldCurrentStateEnd (segmentCore frags).2.mode) = [] := by
      cases (segmentCore frags).2.mode <;> rfl
    rw [hend, List.append_nil]

end OrrinClient
